import Mathlib

/-!
# BVH partitioner base (`foundation/math/bvh/bvh_partitionerbase.h`)

A shallow embedding of `foundation::bvh::PartitionerBase<Tree>` and a verification of
its partitioning contract.

Modelling conventions:

* `std::vector<size_t>` is a `List Nat`; `std::vector<uint8>` (the tags) is a `List Nat`
  holding `Left = 0` / `Right = 1`.
* `m_indices[Tree::Dimension]` is a list of vectors; `Tree::Dimension` is its length.
* Every `operator[]` is bounds-checked and every `assert` is evaluated (debug build):
  a call either returns the new state or stops with a `Fault`.
* `std::sort`, the bounding-box type and the sort key are parameters; `std::sort` is
  only assumed to satisfy the contract the C++ standard gives it.
* `size_t` arithmetic never wraps on the paths modelled: every counter is bounded by a
  vector length, and `end - begin` is only evaluated after the assertions
  `left == pivot` and `right == end` have established `begin <= pivot <= end`.
-/

namespace Bvh

/-! ## Faults and checked vector access -/

/-- Ways in which a call can leave the defined behaviour of the program. -/
inductive Fault where
  /-- An `assert` of the source failed; the argument is the source line. -/
  | assertion (line : Nat)
  /-- An `operator[]` access outside the bounds of a vector or array. -/
  | outOfBounds
  deriving DecidableEq

/-- Checked read `v[i]`. -/
def readAt {α : Type} (v : List α) (i : Nat) : Except Fault α :=
  match v[i]? with
  | some x => .ok x
  | none => .error .outOfBounds

/-- Checked write `v[i] = x`. -/
def writeAt {α : Type} (v : List α) (i : Nat) (x : α) : Except Fault (List α) :=
  if i < v.length then .ok (v.set i x) else .error .outOfBounds

/-- The loop `for (size_t i = lo; i < hi; ++i) body`, threading the state `σ`. -/
def forRange {σ : Type} (lo hi : Nat) (body : Nat → σ → Except Fault σ) (init : σ) :
    Except Fault σ :=
  (List.range' lo (hi - lo)).foldlM (fun st i => body i st) init

/-- The elements of `v` at positions `[b, e)`. -/
def slice {α : Type} (v : List α) (b e : Nat) : List α :=
  (v.take e).drop b

/-- Model of `std::vector::resize(n)` on a vector of integers: truncate, or pad with zeros. -/
def resize (v : List Nat) (n : Nat) : List Nat :=
  v.take n ++ List.replicate (n - v.length) 0

/-! ## State -/

/-- The data members of `PartitionerBase<Tree>`. -/
structure PartitionerBase where
  /-- Member `std::vector<size_t> m_indices[Tree::Dimension]`. -/
  m_indices : List (List Nat)
  /-- Member `std::vector<size_t> m_tmp`. -/
  m_tmp : List Nat
  /-- Member `std::vector<uint8> m_tags`. -/
  m_tags : List Nat
  deriving DecidableEq

/-- The constant `Tree::Dimension`: the number of per-axis index vectors. -/
def PartitionerBase.Dimension (s : PartitionerBase) : Nat :=
  s.m_indices.length

/-- Tag `Left` of `enum { Left = 0, Right = 1 }`. -/
def Left : Nat := 0

/-- Tag `Right` of `enum { Left = 0, Right = 1 }`. -/
def Right : Nat := 1

/-! ## Initialization -/

/-- Modelled from the spec: `BboxSortPredicate` (header `bvh_bboxsortpredicate.h`) is
not part of the sources at hand. Following the specification, item `lhs` precedes item
`rhs` on axis `d` when its axis-`d` sort key is less than that of `rhs`, and ties are
broken by original index: with equal keys, `lhs` precedes `rhs` when `lhs < rhs`. The key
itself (box centre, box minimum, ...) is the parameter `key`. -/
def BboxSortPredicate {B K : Type} [LinearOrder K] (key : B → Nat → K) (bboxes : List B)
    (d : Nat) (lhs rhs : Nat) : Bool :=
  match bboxes[lhs]?, bboxes[rhs]? with
  | some a, some b =>
    decide (key a d < key b d) || (decide (key a d = key b d) && decide (lhs < rhs))
  | _, _ => false

/-- Source lines 101-103: `indices.resize(size)` followed by the loop
`for (i = 0; i < size; ++i) indices[i] = i;`. -/
def identity_ordering (indices : List Nat) (size : Nat) : List Nat :=
  (List.range size).foldl (fun v i => v.set i i) (resize indices size)

/-- The requirement `std::sort` puts on its comparator, restricted to the values being
sorted: `comp` is a strict weak ordering on the elements of `l` (irreflexive, transitive,
with a transitive incomparability relation). -/
def StrictWeakOn (comp : Nat → Nat → Bool) (l : List Nat) : Prop :=
  (∀ a ∈ l, comp a a = false) ∧
  (∀ a ∈ l, ∀ b ∈ l, ∀ c ∈ l, comp a b = true → comp b c = true → comp a c = true) ∧
  (∀ a ∈ l, ∀ b ∈ l, ∀ c ∈ l, comp a b = false → comp b a = false →
    comp b c = false → comp c b = false → comp a c = false ∧ comp c a = false)

/-- The contract of `std::sort`: given a comparator that is a strict weak ordering on the
values of the range, the result is a rearrangement of the range in which no element
precedes (for the comparator) an element placed before it. The relative order of
equivalent elements is not specified. -/
def StdSortSpec (stdsort : (Nat → Nat → Bool) → List Nat → List Nat) : Prop :=
  ∀ comp l, StrictWeakOn comp l →
    (stdsort comp l).Perm l ∧ (stdsort comp l).Pairwise (fun a b => comp b a = false)

/-- One implementation that meets the contract of `std::sort` (insertion sort); it is
used to run the model on concrete inputs. -/
def insertion_sort (comp : Nat → Nat → Bool) (l : List Nat) : List Nat :=
  l.insertionSort (fun a b => comp b a = false)

/-- Method `PartitionerBase::initialize`. The parameter `stdsort` stands for `std::sort`
applied to the whole vector with the given comparator. -/
def initialize_ {B K : Type} [LinearOrder K] (stdsort : (Nat → Nat → Bool) → List Nat → List Nat)
    (key : B → Nat → K) (s : PartitionerBase) (bboxes : List B) : PartitionerBase :=
  let size := bboxes.length
  { m_indices :=
      (List.range s.Dimension).foldl
        (fun m d =>
          m.set d (stdsort (BboxSortPredicate key bboxes d)
            (identity_ordering (m.getD d []) size)))
        s.m_indices
    m_tmp := resize s.m_tmp size
    m_tags := resize s.m_tags size }

/-! ## compute_bbox -/

/-- Method `PartitionerBase::compute_bbox`. `invalidate` is the box left by
`AABBType::invalidate()`, `insert` is `AABBType::insert`. -/
def compute_bbox {B : Type} (invalidate : B) (insert : B → B → B) (s : PartitionerBase)
    (bboxes : List B) (begin_ end_ : Nat) : Except Fault B := do
  let indices ← readAt s.m_indices 0
  forRange begin_ end_
    (fun i bbox => do
      let index ← readAt indices i
      let b ← readAt bboxes index
      pure (insert bbox b))
    invalidate

/-! ## sort_indices -/

/-- The loops `for (i = lo; i < hi; ++i) m_tags[split_indices[i]] = tag;`. -/
def tag_range (split_indices : List Nat) (tag : Nat) (lo hi : Nat) (m_tags : List Nat) :
    Except Fault (List Nat) :=
  forRange lo hi
    (fun i tags => do
      let index ← readAt split_indices i
      writeAt tags index tag)
    m_tags

/-- Local variables of the bucketing walk: the two cursors and the scratch vector. -/
structure Walk where
  left : Nat
  right : Nat
  tmp : List Nat
  deriving DecidableEq

/-- Body of the bucketing loop (source lines 159-169). -/
def walk_body (m_tags indices : List Nat) (end_ pivot : Nat) (i : Nat) (w : Walk) :
    Except Fault Walk := do
  let index ← readAt indices i
  let tag ← readAt m_tags index
  if tag = Left then
    if w.left < pivot then
      let tmp ← writeAt w.tmp w.left index
      pure { w with left := w.left + 1, tmp := tmp }
    else throw (.assertion 162)
  else
    if w.right < end_ then
      let tmp ← writeAt w.tmp w.right index
      pure { w with right := w.right + 1, tmp := tmp }
    else throw (.assertion 167)

/-- The loop `for (i = lo; i < hi; ++i) dst[i] = src[i];`. -/
def copy_range (src : List Nat) (lo hi : Nat) (dst : List Nat) : Except Fault (List Nat) :=
  forRange lo hi
    (fun i dst => do
      let x ← readAt src i
      writeAt dst i x)
    dst

/-- Commit by swapping (source lines 179-185): copy the head `[0, begin)` and the tail
`[end, size)` of `indices` into `m_tmp`, then swap the two vectors. Returns the new
`(indices, m_tmp)`. -/
def commit_swap (begin_ end_ : Nat) (indices m_tmp : List Nat) :
    Except Fault (List Nat × List Nat) := do
  let size := indices.length
  let tmp ← copy_range indices 0 begin_ m_tmp
  let tmp ← copy_range indices end_ size tmp
  pure (tmp, indices)

/-- Commit in place (source lines 189-190): copy `m_tmp[begin, end)` back into
`indices`. Returns the new `(indices, m_tmp)`. -/
def commit_copy (begin_ end_ : Nat) (indices m_tmp : List Nat) :
    Except Fault (List Nat × List Nat) := do
  let indices ← copy_range m_tmp begin_ end_ indices
  pure (indices, m_tmp)

/-- The body of the loop over the axes for one axis `d != dimension`
(source lines 152-191). Returns the new `(indices, m_tmp)`. -/
def sort_axis (m_tags : List Nat) (begin_ end_ pivot : Nat) (indices m_tmp : List Nat) :
    Except Fault (List Nat × List Nat) := do
  let w ← forRange begin_ end_ (walk_body m_tags indices end_ pivot)
    { left := begin_, right := pivot, tmp := m_tmp }
  if w.left ≠ pivot then throw (.assertion 172)
  if w.right ≠ end_ then throw (.assertion 173)
  let size := indices.length
  if end_ - begin_ > size / 2 then
    commit_swap begin_ end_ indices w.tmp
  else
    commit_copy begin_ end_ indices w.tmp

/-- Body of the loop over the axes (source lines 150-192). -/
def axis_body (dimension begin_ end_ pivot : Nat) (d : Nat) (s : PartitionerBase) :
    Except Fault PartitionerBase :=
  if d ≠ dimension then do
    let indices ← readAt s.m_indices d
    let r ← sort_axis s.m_tags begin_ end_ pivot indices s.m_tmp
    pure { s with m_indices := s.m_indices.set d r.1, m_tmp := r.2 }
  else pure s

/-- Method `PartitionerBase::sort_indices` (source lines 131-194). -/
def sort_indices (s : PartitionerBase) (dimension begin_ end_ pivot : Nat) :
    Except Fault PartitionerBase := do
  let split_indices ← readAt s.m_indices dimension
  let tags ← tag_range split_indices Left begin_ pivot s.m_tags
  let tags ← tag_range split_indices Right pivot end_ tags
  forRange 0 s.Dimension (axis_body dimension begin_ end_ pivot) { s with m_tags := tags }

/-- Method `PartitionerBase::get_item_ordering`. -/
def get_item_ordering (s : PartitionerBase) : Except Fault (List Nat) :=
  readAt s.m_indices 0



/-! ## Specification vocabulary -/

/-- Every vector of the state has length `N`: the `Dimension` index vectors, the scratch
vector and the tag vector. -/
def WellSized (s : PartitionerBase) (N : Nat) : Prop :=
  (∀ v ∈ s.m_indices, v.length = N) ∧ s.m_tmp.length = N ∧ s.m_tags.length = N

/-- The range `[b, e)` is active: on every axis it holds distinct indices, each below `N`,
and every axis holds the same set of indices there. -/
def ActiveRange (s : PartitionerBase) (N b e : Nat) : Prop :=
  (∀ v ∈ s.m_indices, (slice v b e).Nodup) ∧
  (∀ v ∈ s.m_indices, ∀ x ∈ slice v b e, x < N) ∧
  (∀ v ∈ s.m_indices, ∀ w ∈ s.m_indices, ∀ x ∈ slice v b e, x ∈ slice w b e)

/-- The stable partition of `v[b, e)` described by the specification: the head `[0, b)`
is kept, then come the elements of `v[b, e)` that lie in `split[b, pivot)`, in the order
they have in `v`, then those that lie in `split[pivot, e)`, in the order they have in
`v`, and the tail `[e, N)` is kept. This definition follows the specification, not the
code. -/
def stable_split (split v : List Nat) (b e pivot : Nat) : List Nat :=
  v.take b ++ (slice v b e).filter (fun x => decide (x ∈ slice split b pivot))
    ++ (slice v b e).filter (fun x => decide (x ∈ slice split pivot e)) ++ v.drop e

/-- The new contents of a range after a split, as the specification describes them: the
elements `cur` of the range that belong to the left group, in their order, followed by
those that belong to the right group, in their order. -/
def split_range (left right cur : List Nat) : List Nat :=
  cur.filter (fun x => decide (x ∈ left)) ++ cur.filter (fun x => decide (x ∈ right))

/-- The index vector of axis `d` (`m_indices[d]`). -/
def PartitionerBase.axis (s : PartitionerBase) (d : Nat) : List Nat :=
  s.m_indices.getD d []

/-- The list of item indices `l` is sorted ascending (non-decreasing) by the axis-`d`
sort key of the boxes. -/
def SortedOnAxis {B K : Type} [LinearOrder K] (key : B → Nat → K) (bboxes : List B) (d : Nat)
    (l : List Nat) : Prop :=
  l.Pairwise (fun i j => ∀ a b, bboxes[i]? = some a → bboxes[j]? = some b → key a d ≤ key b d)

/-- A configuration of a build: the partitioner state together with the ranges that are
currently active in the recursion of the build driver, from left to right. -/
structure Config where
  state : PartitionerBase
  ranges : List (Nat × Nat)
  deriving DecidableEq

/-- The configurations a build driver can reach: it starts with `initialize(bboxes)` and
the single active range `[0, N)`; a step picks an active range `[b, e)`, an axis and a
pivot with `b <= pivot <= e`, calls `sort_indices(axis, b, e, pivot)` and replaces
`[b, e)` by the two active ranges `[b, pivot)` and `[pivot, e)`. -/
inductive Reachable {B K : Type} [LinearOrder K]
    (stdsort : (Nat → Nat → Bool) → List Nat → List Nat) (key : B → Nat → K)
    (s0 : PartitionerBase) (bboxes : List B) : Config → Prop where
  | init : Reachable stdsort key s0 bboxes
      { state := initialize_ stdsort key s0 bboxes, ranges := [(0, bboxes.length)] }
  | split (c : Config) (before after : List (Nat × Nat)) (b e dimension pivot : Nat)
      (s' : PartitionerBase) :
      Reachable stdsort key s0 bboxes c →
      c.ranges = before ++ (b, e) :: after →
      dimension < c.state.Dimension → b ≤ pivot → pivot ≤ e →
      sort_indices c.state dimension b e pivot = .ok s' →
      Reachable stdsort key s0 bboxes
        { state := s', ranges := before ++ (b, pivot) :: (pivot, e) :: after }

/-- The invariant of a build over `N` boxes: all vectors have length `N`, every axis is a
permutation of `0..N-1`, the active ranges are ordered and do not overlap, and every
active range lies within `[0, N]`, is active (same distinct indices on all axes) and is
sorted on every axis by that axis's key. -/
def BuildInvariant {B K : Type} [LinearOrder K] (key : B → Nat → K) (bboxes : List B)
    (c : Config) : Prop :=
  WellSized c.state bboxes.length ∧
  (∀ v ∈ c.state.m_indices, v.Perm (List.range bboxes.length)) ∧
  c.ranges.Pairwise (fun r1 r2 => r1.2 ≤ r2.1) ∧
  ∀ r ∈ c.ranges, r.1 ≤ r.2 ∧ r.2 ≤ bboxes.length ∧
    ActiveRange c.state bboxes.length r.1 r.2 ∧
    ∀ d, d < c.state.Dimension → SortedOnAxis key bboxes d (slice (c.state.axis d) r.1 r.2)

/-- A freshly constructed partitioner with `D` axes: every vector is empty. -/
def fresh (D : Nat) : PartitionerBase :=
  { m_indices := List.replicate D [], m_tmp := [], m_tags := [] }

/-- The state of the specification's second scenario: four items, axis-0 order
`[1,3,0,2]`, axis-1 order `[0,1,2,3]`, buffers as left by the initialization. -/
def scenario_state : PartitionerBase :=
  { m_indices := [[1, 3, 0, 2], [0, 1, 2, 3]], m_tmp := [0, 0, 0, 0], m_tags := [0, 0, 0, 0] }

/-- The scenario after recursive bisection down to four ranges of size one: `[0,4)` is
split on axis 0 at pivot 2, then `[0,2)` on axis 1 at pivot 1 and `[2,4)` on axis 1 at
pivot 3. -/
def bisected_config : Config :=
  { state := { m_indices := [[1, 3, 0, 2], [1, 3, 0, 2]], m_tmp := [1, 3, 0, 2],
               m_tags := [0, 0, 1, 1] },
    ranges := [(0, 1), (1, 2), (2, 3), (3, 4)] }

/-- Boxes for the scenario, reduced to their two sort keys: the axis-0 keys are
`[3,1,4,2]`, the axis-1 keys are `[0,1,2,3]`. -/
def scenario_boxes : List (Int × Int) := [(3, 0), (1, 1), (4, 2), (2, 3)]

/-- Sort key of a scenario box on axis `d`. -/
def scenario_key (b : Int × Int) (d : Nat) : Int :=
  if d = 0 then b.1 else b.2

/-! ## Loop rules -/

theorem forRange_empty {σ : Type} (lo hi : Nat) (body : Nat → σ → Except Fault σ) (init : σ)
    (h : hi ≤ lo) : forRange lo hi body init = .ok init := by
  have h0 : hi - lo = 0 := by omega
  simp [forRange, h0, pure, Except.pure]

theorem forRange_step {σ : Type} (lo hi : Nat) (body : Nat → σ → Except Fault σ) (init : σ)
    (h : lo < hi) :
    forRange lo hi body init = (body lo init >>= fun st => forRange (lo + 1) hi body st) := by
  have h0 : hi - lo = (hi - (lo + 1)) + 1 := by omega
  simp [forRange, h0, List.range'_succ]

/-- Invariant rule for `for` loops: an invariant that holds on entry and is carried by
every iteration (which must not fault) holds on exit, and the loop does not fault. -/
theorem forRange_inv {σ : Type} (body : Nat → σ → Except Fault σ) (Inv : Nat → σ → Prop)
    (hi : Nat) :
    ∀ (n lo : Nat) (init : σ), lo + n = hi → Inv lo init →
      (∀ i st, lo ≤ i → i < hi → Inv i st → ∃ st', body i st = .ok st' ∧ Inv (i + 1) st') →
      ∃ st', forRange lo hi body init = .ok st' ∧ Inv hi st' := by
  intro n
  induction n with
  | zero =>
    intro lo init hlo h0 _
    have : lo = hi := by omega
    subst this
    exact ⟨init, forRange_empty _ _ _ _ (le_refl _), h0⟩
  | succ n ih =>
    intro lo init hlo h0 hstep
    obtain ⟨st1, hb, hinv1⟩ := hstep lo init (le_refl _) (by omega) h0
    obtain ⟨st2, hrun, hinv2⟩ := ih (lo + 1) st1 (by omega) hinv1
      (fun i st h1 h2 h3 => hstep i st (by omega) h2 h3)
    refine ⟨st2, ?_, hinv2⟩
    rw [forRange_step _ _ _ _ (by omega), hb]
    exact hrun

theorem forRange_rule {σ : Type} (lo hi : Nat) (body : Nat → σ → Except Fault σ) (init : σ)
    (Inv : Nat → σ → Prop) (hle : lo ≤ hi) (h0 : Inv lo init)
    (hstep : ∀ i st, lo ≤ i → i < hi → Inv i st →
      ∃ st', body i st = .ok st' ∧ Inv (i + 1) st') :
    ∃ st', forRange lo hi body init = .ok st' ∧ Inv hi st' :=
  forRange_inv body Inv hi (hi - lo) lo init (by omega) h0 hstep

/-! ## Checked access -/

theorem readAt_ok {α : Type} (v : List α) (i : Nat) (h : i < v.length) :
    readAt v i = .ok v[i] := by
  simp [readAt, List.getElem?_eq_getElem h]

theorem writeAt_ok {α : Type} (v : List α) (i : Nat) (x : α) (h : i < v.length) :
    writeAt v i x = .ok (v.set i x) := by
  simp [writeAt, h]

theorem set_getElem_same {α : Type} (l : List α) (i : Nat) (h : i < l.length) :
    l.set i l[i] = l := by
  apply List.ext_getElem?
  intro j
  rw [List.getElem?_set]
  by_cases hij : i = j
  · subst hij
    simp [h]
  · simp [hij]

/-! ## Slices -/

theorem slice_length {α : Type} (v : List α) (b e : Nat) (he : e ≤ v.length) :
    (slice v b e).length = e - b := by
  simp [slice]; omega

theorem slice_self {α : Type} (v : List α) (a : Nat) : slice v a a = [] := by
  simp [slice]

theorem slice_zero {α : Type} (v : List α) (e : Nat) : slice v 0 e = v.take e := by
  simp [slice]

theorem slice_to_length {α : Type} (v : List α) (b : Nat) : slice v b v.length = v.drop b := by
  simp [slice]

theorem slice_succ {α : Type} (v : List α) (b i : Nat) (hb : b ≤ i) (hi : i < v.length) :
    slice v b (i + 1) = slice v b i ++ [v[i]] := by
  unfold slice
  rw [List.take_succ, List.drop_append_of_le_length (by simp; omega)]
  simp [List.getElem?_eq_getElem hi]

theorem slice_getElem? {α : Type} (v : List α) (a b k : Nat) :
    (slice v a b)[k]? = if a + k < b then v[a + k]? else none := by
  simp only [slice, List.getElem?_drop, List.getElem?_take]

theorem slice_append {α : Type} (v : List α) (a b c : Nat) (hab : a ≤ b) (hbc : b ≤ c) :
    slice v a b ++ slice v b c = slice v a c := by
  apply List.ext_getElem?
  intro k
  by_cases hlen : b ≤ v.length
  · rw [List.getElem?_append, slice_length v a b hlen]
    simp only [slice_getElem?]
    by_cases h1 : k < b - a
    · have h2 : a + k < b := by omega
      have h3 : a + k < c := by omega
      simp [h1, h2, h3]
    · have h4 : b + (k - (b - a)) = a + k := by omega
      have h5 : ¬ a + k < b := by omega
      simp [h1, h4]
  · have hb : slice v b c = [] := by
      simp [slice]; omega
    rw [hb, List.append_nil]
    simp only [slice_getElem?]
    by_cases h1 : a + k < b
    · by_cases h2 : a + k < v.length
      · have h3 : a + k < c := by omega
        simp [h1, h3]
      · have h3 : v[a + k]? = none := List.getElem?_eq_none (by omega)
        simp [h3]
    · by_cases h3 : a + k < c
      · have h4 : v[a + k]? = none := List.getElem?_eq_none (by omega)
        simp [h1, h3, h4]
      · simp [h1, h3]

theorem take_slice_drop {α : Type} (v : List α) (a b : Nat) (hab : a ≤ b) :
    v.take a ++ slice v a b ++ v.drop b = v := by
  have h := slice_append v 0 a b (Nat.zero_le _) hab
  rw [slice_zero] at h
  rw [h, slice_zero, List.take_append_drop]

theorem slice_set_outside {α : Type} (v : List α) (a b k : Nat) (x : α)
    (hk : k < a ∨ b ≤ k) : slice (v.set k x) a b = slice v a b := by
  apply List.ext_getElem?
  intro j
  simp only [slice_getElem?]
  by_cases h1 : a + j < b
  · simp only [h1, if_true]
    exact List.getElem?_set_ne (by omega)
  · simp [h1]

theorem slice_sublist {α : Type} (v : List α) (a b : Nat) : (slice v a b).Sublist v :=
  (List.drop_sublist _ _).trans (List.take_sublist _ _)

theorem slice_mono_sublist {α : Type} (v : List α) (a b c : Nat) (hab : a ≤ b) (hbc : b ≤ c) :
    (slice v a b).Sublist (slice v a c) := by
  rw [← slice_append v a b c hab hbc]
  exact List.sublist_append_left _ _

/-! ## The copy loop -/

theorem copy_range_ok (src dst : List Nat) (lo hi : Nat) (hle : lo ≤ hi)
    (hs : hi ≤ src.length) (hd : hi ≤ dst.length) :
    ∃ dst', copy_range src lo hi dst = .ok dst' ∧ dst'.length = dst.length ∧
      ∀ j, dst'[j]? = if lo ≤ j ∧ j < hi then src[j]? else dst[j]? := by
  have h := forRange_rule lo hi
    (fun i dst => do
      let x ← readAt src i
      writeAt dst i x) dst
    (fun i d => d.length = dst.length ∧
      ∀ j, d[j]? = if lo ≤ j ∧ j < i then src[j]? else dst[j]?)
    hle ⟨rfl, fun j => by
      have : ¬ (lo ≤ j ∧ j < lo) := by omega
      simp [this]⟩
    (by
      intro i d h1 h2 ⟨hlen, hpt⟩
      have hi1 : i < src.length := by omega
      have hi2 : i < d.length := by omega
      refine ⟨d.set i src[i], ?_, by simpa using hlen, ?_⟩
      · simp [readAt_ok src i hi1, writeAt_ok d i _ hi2, bind, Except.bind]
      · intro j
        rw [List.getElem?_set]
        by_cases hj : i = j
        · subst hj
          have : lo ≤ i ∧ i < i + 1 := by omega
          simp [hi2, this, List.getElem?_eq_getElem hi1]
        · rw [if_neg hj, hpt j]
          by_cases hc : lo ≤ j ∧ j < i
          · have : lo ≤ j ∧ j < i + 1 := by omega
            simp [hc, this]
          · have : ¬ (lo ≤ j ∧ j < i + 1) := by omega
            simp [hc, this])
  exact h

/-! ## The two commit strategies -/

theorem commit_copy_ok (indices tmp : List Nat) (b e : Nat) (hbe : b ≤ e)
    (he : e ≤ indices.length) (hlen : tmp.length = indices.length) :
    ∃ r, commit_copy b e indices tmp = .ok (r, tmp) ∧ r.length = indices.length ∧
      ∀ j, r[j]? = if b ≤ j ∧ j < e then tmp[j]? else indices[j]? := by
  obtain ⟨r, h1, h2, h3⟩ := copy_range_ok tmp indices b e hbe (by omega) he
  exact ⟨r, by simp [commit_copy, h1, bind, Except.bind, pure, Except.pure], h2, h3⟩

theorem commit_swap_ok (indices tmp : List Nat) (b e : Nat) (hbe : b ≤ e)
    (he : e ≤ indices.length) (hlen : tmp.length = indices.length) :
    ∃ r, commit_swap b e indices tmp = .ok (r, indices) ∧ r.length = indices.length ∧
      ∀ j, r[j]? = if b ≤ j ∧ j < e then tmp[j]? else indices[j]? := by
  obtain ⟨t1, h1, hl1, hp1⟩ := copy_range_ok indices tmp 0 b (Nat.zero_le _) (by omega) (by omega)
  obtain ⟨t2, h2, hl2, hp2⟩ :=
    copy_range_ok indices t1 e indices.length he (le_refl _) (by omega)
  refine ⟨t2, by simp [commit_swap, h1, h2, bind, Except.bind, pure, Except.pure],
    by omega, ?_⟩
  intro j
  rw [hp2 j, hp1 j]
  by_cases hj : j < indices.length
  · by_cases c1 : b ≤ j ∧ j < e
    · have c2 : ¬ (e ≤ j ∧ j < indices.length) := by omega
      have c3 : ¬ (0 ≤ j ∧ j < b) := by omega
      simp [c1, c2, c3]
    · by_cases c2 : e ≤ j
      · simp [c1, c2, hj]
      · have c3 : 0 ≤ j ∧ j < b := by omega
        have c4 : ¬ (e ≤ j ∧ j < indices.length) := by omega
        simp [c1, c3, c4]
  · have n1 : indices[j]? = none := List.getElem?_eq_none (by omega)
    have n2 : tmp[j]? = none := List.getElem?_eq_none (by omega)
    simp [n1, n2]

/-! ## The bucketing walk -/

theorem filter_length_add (p : Nat → Bool) (l : List Nat) :
    (l.filter p).length + (l.filter (fun x => !p x)).length = l.length := by
  induction l with
  | nil => rfl
  | cons a l ih =>
    by_cases h : p a = true
    · simp [List.filter_cons, h]; omega
    · simp [List.filter_cons, h]; omega

theorem walk_ok (tags indices tmp : List Nat) (b e pivot N : Nat) (p : Nat → Bool)
    (hbp : b ≤ pivot) (hpe : pivot ≤ e) (heN : e ≤ N)
    (hind : indices.length = N) (htmp : tmp.length = N)
    (htag : ∀ x ∈ slice indices b e, ∃ t, tags[x]? = some t ∧ (t = Left ↔ p x = true))
    (hcount : ((slice indices b e).filter p).length = pivot - b) :
    ∃ w, forRange b e (walk_body tags indices e pivot) ⟨b, pivot, tmp⟩ = .ok w ∧
      w.left = pivot ∧ w.right = e ∧ w.tmp.length = N ∧
      slice w.tmp b pivot = (slice indices b e).filter p ∧
      slice w.tmp pivot e = (slice indices b e).filter (fun x => !p x) := by
  have hcountR : ((slice indices b e).filter (fun x => !p x)).length = e - pivot := by
    have h := filter_length_add p (slice indices b e)
    rw [slice_length indices b e (by omega)] at h
    omega
  have hbe : b ≤ e := by omega
  obtain ⟨w, hrun, hl, hr, hlen, hsl, hsr⟩ := forRange_rule b e (walk_body tags indices e pivot)
    ⟨b, pivot, tmp⟩
    (fun i w =>
      w.left = b + ((slice indices b i).filter p).length ∧
      w.right = pivot + ((slice indices b i).filter (fun x => !p x)).length ∧
      w.tmp.length = N ∧
      slice w.tmp b w.left = (slice indices b i).filter p ∧
      slice w.tmp pivot w.right = (slice indices b i).filter (fun x => !p x))
    hbe (by simp [slice_self, htmp])
    (by
      intro i w h1 h2 ⟨hl, hr, hlen, hsl, hsr⟩
      have hi : i < indices.length := by omega
      have hP : slice indices b (i + 1) = slice indices b i ++ [indices[i]] :=
        slice_succ indices b i h1 hi
      have hsub : (slice indices b (i + 1)).Sublist (slice indices b e) :=
        slice_mono_sublist indices b (i + 1) e (by omega) (by omega)
      have hmem : indices[i] ∈ slice indices b e :=
        hsub.subset (by rw [hP]; simp)
      obtain ⟨t, ht, htp⟩ := htag _ hmem
      have hcl := (hsub.filter p).length_le
      have hcr := (hsub.filter (fun x => !p x)).length_le
      rw [hP, hcount] at hcl
      rw [hP, hcountR] at hcr
      have hrt : readAt tags indices[i] = .ok t := by simp [readAt, ht]
      by_cases hp : p indices[i] = true
      · have htl : t = Left := htp.mpr hp
        simp only [List.filter_append, List.filter_cons, hp, List.filter_nil, if_true,
          List.length_append, List.length_singleton] at hcl
        have hlt : w.left < pivot := by omega
        have hw : w.left < w.tmp.length := by omega
        refine ⟨{ w with left := w.left + 1, tmp := w.tmp.set w.left indices[i] },
          ?_, ?_, ?_, ?_, ?_, ?_⟩
        · simp [walk_body, readAt_ok indices i hi, hrt, htl, hlt, writeAt_ok _ _ _ hw, bind,
            Except.bind, pure, Except.pure]
        · simp [hP, List.filter_append, List.filter_cons, hp, hl]; omega
        · simp [hP, List.filter_append, List.filter_cons, hp, hr]
        · simpa using hlen
        · have hw2 : w.left < (w.tmp.set w.left indices[i]).length := by simpa using hw
          show slice (w.tmp.set w.left indices[i]) b (w.left + 1) = _
          rw [slice_succ _ b w.left (by omega) hw2, slice_set_outside _ _ _ _ _ (Or.inr (le_refl _)),
            hsl, hP]
          simp [List.filter_append, List.filter_cons, hp]
        · show slice (w.tmp.set w.left indices[i]) pivot w.right = _
          rw [slice_set_outside _ _ _ _ _ (Or.inl hlt), hsr, hP]
          simp [List.filter_append, List.filter_cons, hp]
      · have htl : ¬ t = Left := fun h => hp (htp.mp h)
        have hp2 : p indices[i] = false := by simpa using hp
        simp only [List.filter_append, List.filter_cons, hp2, List.filter_nil, Bool.not_false,
          if_true, List.length_append, List.length_singleton] at hcl hcr
        have hlt : w.right < e := by omega
        have hw : w.right < w.tmp.length := by omega
        have hlp : w.left ≤ pivot := by
          have := ((slice_mono_sublist indices b i e h1 (by omega)).filter p).length_le
          omega
        refine ⟨{ w with right := w.right + 1, tmp := w.tmp.set w.right indices[i] },
          ?_, ?_, ?_, ?_, ?_, ?_⟩
        · simp [walk_body, readAt_ok indices i hi, hrt, htl, hlt, writeAt_ok _ _ _ hw, bind,
            Except.bind, pure, Except.pure]
        · simp [hP, List.filter_append, List.filter_cons, hp2, hl]
        · simp [hP, List.filter_append, List.filter_cons, hp2, hr]; omega
        · simpa using hlen
        · show slice (w.tmp.set w.right indices[i]) b w.left = _
          rw [slice_set_outside _ _ _ _ _ (Or.inr (by omega)), hsl, hP]
          simp [List.filter_append, List.filter_cons, hp2]
        · have hw2 : w.right < (w.tmp.set w.right indices[i]).length := by
            simpa using hw
          show slice (w.tmp.set w.right indices[i]) pivot (w.right + 1) = _
          rw [slice_succ _ pivot w.right (by omega) hw2,
            slice_set_outside _ _ _ _ _ (Or.inr (le_refl _)), hsr, hP]
          simp [List.filter_append, List.filter_cons, hp2])
  rw [hcount] at hl
  rw [hcountR] at hr
  have hl2 : w.left = pivot := by omega
  have hr2 : w.right = e := by omega
  rw [hl2] at hsl
  rw [hr2] at hsr
  exact ⟨w, hrun, hl2, hr2, hlen, hsl, hsr⟩

/-! ## One axis -/

theorem slice_congr {α : Type} (r t : List α) (a c : Nat)
    (h : ∀ j, a ≤ j → j < c → r[j]? = t[j]?) : slice r a c = slice t a c := by
  apply List.ext_getElem?
  intro k
  simp only [slice_getElem?]
  by_cases hk : a + k < c
  · simp only [hk, if_true]
    exact h _ (by omega) hk
  · simp [hk]

theorem eq_of_parts {α : Type} (r v A B : List α) (b p e : Nat) (hbp : b ≤ p) (hpe : p ≤ e)
    (hout : ∀ j, j < b ∨ e ≤ j → r[j]? = v[j]?)
    (hA : slice r b p = A) (hB : slice r p e = B) :
    r = v.take b ++ A ++ B ++ v.drop e := by
  have h1 : r.take b = v.take b := by
    rw [← slice_zero, ← slice_zero]
    exact slice_congr r v 0 b (fun j _ hj => hout j (Or.inl hj))
  have h2 : r.drop e = v.drop e := by
    apply List.ext_getElem?
    intro k
    simp only [List.getElem?_drop]
    exact hout _ (Or.inr (by omega))
  have h3 := take_slice_drop r b e (by omega)
  rw [← slice_append r b p e hbp hpe, hA, hB, h1, h2, ← List.append_assoc] at h3
  exact h3.symm

theorem slice_mid {α : Type} (X M Y : List α) (a c : Nat) (hX : X.length = a)
    (hM : M.length = c - a) (hac : a ≤ c) : slice (X ++ M ++ Y) a c = M := by
  unfold slice
  rw [List.take_left' (by simp [hX, hM]; omega), List.drop_left' hX]

theorem sort_axis_ok (tags indices tmp : List Nat) (b e pivot N : Nat) (p : Nat → Bool)
    (hbp : b ≤ pivot) (hpe : pivot ≤ e) (heN : e ≤ N)
    (hind : indices.length = N) (htmp : tmp.length = N)
    (htag : ∀ x ∈ slice indices b e, ∃ t, tags[x]? = some t ∧ (t = Left ↔ p x = true))
    (hcount : ((slice indices b e).filter p).length = pivot - b) :
    ∃ t, sort_axis tags b e pivot indices tmp =
        .ok (indices.take b ++ (slice indices b e).filter p
          ++ (slice indices b e).filter (fun x => !p x) ++ indices.drop e, t) ∧
      t.length = N := by
  obtain ⟨w, hrun, hl, hr, hlen, hsl, hsr⟩ :=
    walk_ok tags indices tmp b e pivot N p hbp hpe heN hind htmp htag hcount
  have key : ∀ r : List Nat, r.length = indices.length →
      (∀ j, r[j]? = if b ≤ j ∧ j < e then w.tmp[j]? else indices[j]?) →
      r = indices.take b ++ (slice indices b e).filter p
          ++ (slice indices b e).filter (fun x => !p x) ++ indices.drop e := by
    intro r hrl hrp
    apply eq_of_parts r indices _ _ b pivot e hbp hpe
    · intro j hj
      rw [hrp j]
      have : ¬ (b ≤ j ∧ j < e) := by omega
      simp [this]
    · rw [← hsl]
      apply slice_congr
      intro j h1 h2
      rw [hrp j]
      have : b ≤ j ∧ j < e := by omega
      simp [this]
    · rw [← hsr]
      apply slice_congr
      intro j h1 h2
      rw [hrp j]
      have : b ≤ j ∧ j < e := by omega
      simp [this]
  by_cases hbr : e - b > indices.length / 2
  · obtain ⟨r, hc, hrl, hrp⟩ := commit_swap_ok indices w.tmp b e (by omega) (by omega) (by omega)
    refine ⟨indices, ?_, hind⟩
    rw [← key r hrl hrp]
    simp [sort_axis, hrun, hl, hr, hbr, hc, bind, Except.bind, pure, Except.pure]
  · obtain ⟨r, hc, hrl, hrp⟩ := commit_copy_ok indices w.tmp b e (by omega) (by omega) (by omega)
    refine ⟨w.tmp, ?_, hlen⟩
    rw [← key r hrl hrp]
    simp [sort_axis, hrun, hl, hr, hbr, hc, bind, Except.bind, pure, Except.pure]

/-! ## Tagging -/

theorem tag_range_ok (split tags : List Nat) (tag lo hi : Nat) (hle : lo ≤ hi)
    (hhi : hi ≤ split.length) (hb : ∀ x ∈ slice split lo hi, x < tags.length) :
    ∃ tags', tag_range split tag lo hi tags = .ok tags' ∧ tags'.length = tags.length ∧
      (∀ x ∈ slice split lo hi, tags'[x]? = some tag) ∧
      (∀ x, x ∉ slice split lo hi → tags'[x]? = tags[x]?) := by
  apply forRange_rule lo hi _ tags
    (fun i t => t.length = tags.length ∧
      (∀ x ∈ slice split lo i, t[x]? = some tag) ∧
      (∀ x, x ∉ slice split lo i → t[x]? = tags[x]?))
    hle (by simp [slice_self])
  intro i t h1 h2 ⟨hlen, hin, hout⟩
  have hi1 : i < split.length := by omega
  have hP : slice split lo (i + 1) = slice split lo i ++ [split[i]] :=
    slice_succ split lo i h1 hi1
  have hmem : split[i] ∈ slice split lo hi :=
    (slice_mono_sublist split lo (i + 1) hi (by omega) (by omega)).subset (by rw [hP]; simp)
  have hx : split[i] < t.length := by rw [hlen]; exact hb _ hmem
  refine ⟨t.set split[i] tag, ?_, by simpa using hlen, ?_, ?_⟩
  · simp [readAt_ok split i hi1, writeAt_ok t _ tag hx, bind, Except.bind]
  · intro x hxm
    rw [hP, List.mem_append, List.mem_singleton] at hxm
    rw [List.getElem?_set]
    by_cases hxe : split[i] = x
    · subst hxe
      simp [hx]
    · rw [if_neg hxe]
      rcases hxm with h | h
      · exact hin x h
      · exact absurd h.symm hxe
  · intro x hxm
    rw [hP, List.mem_append, List.mem_singleton] at hxm
    rw [List.getElem?_set]
    have hxe : ¬ split[i] = x := fun h => hxm (Or.inr h.symm)
    rw [if_neg hxe]
    exact hout x (fun h => hxm (Or.inl h))

/-! ## Facts about an active range -/

theorem split_disjoint (split : List Nat) (b e pivot : Nat) (hbp : b ≤ pivot) (hpe : pivot ≤ e)
    (hnd : (slice split b e).Nodup) :
    ∀ x, x ∈ slice split b pivot → x ∈ slice split pivot e → False := by
  rw [← slice_append split b pivot e hbp hpe, List.nodup_append] at hnd
  intro x h1 h2
  exact hnd.2.2 h1 h2

theorem mem_split_iff (split : List Nat) (b e pivot : Nat) (hbp : b ≤ pivot) (hpe : pivot ≤ e)
    (x : Nat) : x ∈ slice split b e ↔ x ∈ slice split b pivot ∨ x ∈ slice split pivot e := by
  rw [← slice_append split b pivot e hbp hpe, List.mem_append]

theorem left_count (split v : List Nat) (b e pivot : Nat) (hbp : b ≤ pivot) (hpe : pivot ≤ e)
    (hes : e ≤ split.length)
    (hnds : (slice split b e).Nodup) (hndv : (slice v b e).Nodup)
    (h1 : ∀ x ∈ slice v b e, x ∈ slice split b e)
    (h2 : ∀ x ∈ slice split b e, x ∈ slice v b e) :
    ((slice v b e).filter (fun x => decide (x ∈ slice split b pivot))).length = pivot - b := by
  have hperm : (slice v b e).Perm (slice split b e) :=
    (List.perm_ext_iff_of_nodup hndv hnds).mpr (fun x => ⟨h1 x, h2 x⟩)
  rw [(hperm.filter _).length_eq, ← slice_append split b pivot e hbp hpe, List.filter_append]
  have hl : (slice split b pivot).filter (fun x => decide (x ∈ slice split b pivot))
      = slice split b pivot := by
    rw [List.filter_eq_self]
    intro x hx
    simpa using hx
  have hr : (slice split pivot e).filter (fun x => decide (x ∈ slice split b pivot)) = [] := by
    rw [List.filter_eq_nil_iff]
    intro x hx
    have := split_disjoint split b e pivot hbp hpe hnds x
    simp only [decide_eq_true_eq]
    exact fun h => this h hx
  rw [hl, hr, List.append_nil, slice_length split b pivot (by omega)]

theorem right_filter (split v : List Nat) (b e pivot : Nat) (hbp : b ≤ pivot) (hpe : pivot ≤ e)
    (hnds : (slice split b e).Nodup)
    (h1 : ∀ x ∈ slice v b e, x ∈ slice split b e) :
    (slice v b e).filter (fun x => !decide (x ∈ slice split b pivot))
      = (slice v b e).filter (fun x => decide (x ∈ slice split pivot e)) := by
  apply List.filter_congr
  intro x hx
  have hm := (mem_split_iff split b e pivot hbp hpe x).mp (h1 x hx)
  have hd := split_disjoint split b e pivot hbp hpe hnds x
  by_cases hl : x ∈ slice split b pivot
  · have hr : x ∉ slice split pivot e := fun h => hd hl h
    simp [hl, hr]
  · have hr : x ∈ slice split pivot e := by tauto
    simp [hl, hr]

/-! ## The whole call -/

theorem mem_of_getElem?_eq {α : Type} (l : List α) (d : Nat) (v : α) (h : l[d]? = some v) :
    v ∈ l := by
  obtain ⟨hd, hv⟩ := List.getElem?_eq_some.mp h
  rw [← hv]
  exact List.getElem_mem hd

/-- On a valid call, `sort_indices` returns, keeps every buffer at length `N`, leaves
the split axis alone and replaces every other axis by its stable partition; the tag
vector it leaves holds `Left` for the left group of the split axis, `Right` for its
right group, and is unchanged elsewhere. -/
theorem sort_indices_refines_tags (s : PartitionerBase) (N dimension b e pivot : Nat)
    (split : List Nat) (hsplit : s.m_indices[dimension]? = some split)
    (hws : WellSized s N) (hact : ActiveRange s N b e)
    (hbp : b ≤ pivot) (hpe : pivot ≤ e) (heN : e ≤ N) :
    ∃ s', sort_indices s dimension b e pivot = .ok s' ∧
      s'.m_tmp.length = N ∧ s'.m_tags.length = N ∧
      s'.m_indices.length = s.m_indices.length ∧
      (∀ d, s'.m_indices[d]? = (s.m_indices[d]?).map
        (fun v => if d = dimension then v else stable_split split v b e pivot)) ∧
      (∀ x ∈ slice split b pivot, s'.m_tags[x]? = some Left) ∧
      (∀ x ∈ slice split pivot e, s'.m_tags[x]? = some Right) ∧
      (∀ x, x ∉ slice split b e → s'.m_tags[x]? = s.m_tags[x]?) := by
  obtain ⟨⟨hlen, htmp, htags⟩, hnd, hlt, hset⟩ := And.intro hws hact
  have hsm : split ∈ s.m_indices := mem_of_getElem?_eq _ _ _ hsplit
  have hsl : split.length = N := hlen _ hsm
  have hnds := hnd _ hsm
  have hdisj := split_disjoint split b e pivot hbp hpe hnds
  -- tagging
  obtain ⟨tags1, ht1, hl1, hin1, hout1⟩ := tag_range_ok split s.m_tags Left b pivot hbp (by omega)
    (fun x hx => by
      rw [htags]
      exact hlt _ hsm x ((mem_split_iff split b e pivot hbp hpe x).mpr (Or.inl hx)))
  obtain ⟨tags2, ht2, hl2, hin2, hout2⟩ := tag_range_ok split tags1 Right pivot e hpe (by omega)
    (fun x hx => by
      rw [hl1, htags]
      exact hlt _ hsm x ((mem_split_iff split b e pivot hbp hpe x).mpr (Or.inr hx)))
  have htag : ∀ v ∈ s.m_indices, ∀ x ∈ slice v b e, ∃ t, tags2[x]? = some t ∧
      (t = Left ↔ decide (x ∈ slice split b pivot) = true) := by
    intro v hv x hx
    rcases (mem_split_iff split b e pivot hbp hpe x).mp (hset v hv split hsm x hx) with h | h
    · refine ⟨Left, ?_, by simp [h]⟩
      rw [hout2 x (fun h2 => hdisj x h h2)]
      exact hin1 x h
    · refine ⟨Right, hin2 x h, ?_⟩
      have : x ∉ slice split b pivot := fun h1 => hdisj x h1 h
      simp [this, Left, Right]
  -- the loop over the axes
  obtain ⟨s', hrun, hT, hM, hI, hP⟩ := forRange_rule 0 s.Dimension
    (axis_body dimension b e pivot) { s with m_tags := tags2 }
    (fun k st => st.m_tags = tags2 ∧ st.m_tmp.length = N ∧
      st.m_indices.length = s.m_indices.length ∧
      ∀ d, st.m_indices[d]? = if d < k then (s.m_indices[d]?).map
        (fun v => if d = dimension then v else stable_split split v b e pivot)
        else s.m_indices[d]?)
    (Nat.zero_le _) ⟨rfl, htmp, rfl, fun d => by simp⟩
    (by
      intro k st _ hk ⟨hT, hM, hI, hP⟩
      have hk2 : k < s.m_indices.length := hk
      by_cases hkd : k = dimension
      · refine ⟨st, by simp [axis_body, hkd, pure, Except.pure], hT, hM, hI, ?_⟩
        intro d
        rw [hP d]
        by_cases h1 : d < k
        · have : d < k + 1 := by omega
          simp [h1, this]
        · by_cases h2 : d = k
          · subst h2
            simp [hkd, hsplit]
          · have : ¬ d < k + 1 := by omega
            simp [h1, this]
      · have hvk : st.m_indices[k]? = some s.m_indices[k] := by
          rw [hP k]
          simp [List.getElem?_eq_getElem hk2]
        have hv : s.m_indices[k] ∈ s.m_indices := List.getElem_mem hk2
        obtain ⟨t, hax, htl⟩ := sort_axis_ok tags2 s.m_indices[k] st.m_tmp b e pivot N
          (fun x => decide (x ∈ slice split b pivot)) hbp hpe heN (hlen _ hv) hM
          (htag _ hv)
          (left_count split _ b e pivot hbp hpe (by omega) hnds (hnd _ hv)
            (hset _ hv _ hsm) (hset _ hsm _ hv))
        rw [right_filter split _ b e pivot hbp hpe hnds (hset _ hv _ hsm)] at hax
        refine ⟨{ st with m_indices := st.m_indices.set k (stable_split split s.m_indices[k] b e pivot),
                          m_tmp := t }, ?_, hT, htl, by simpa using hI, ?_⟩
        · simp [axis_body, hkd, readAt, hvk, hT, hax, stable_split, bind, Except.bind, pure,
            Except.pure]
        · intro d
          show (st.m_indices.set k (stable_split split s.m_indices[k] b e pivot))[d]? = _
          rw [List.getElem?_set]
          by_cases h2 : k = d
          · subst h2
            have : k < st.m_indices.length := by omega
            simp [this, hkd, List.getElem?_eq_getElem hk2]
          · rw [if_neg h2, hP d]
            by_cases h1 : d < k
            · have : d < k + 1 := by omega
              simp [h1, this]
            · have : ¬ d < k + 1 := by omega
              simp [h1, this])
  refine ⟨s', ?_, hM, by rw [hT, hl2, hl1, htags], hI, ?_, ?_, ?_, ?_⟩
  · simp [sort_indices, readAt, hsplit, ht1, ht2, hrun, bind, Except.bind]
  · intro d
    rw [hP d]
    by_cases h1 : d < s.Dimension
    · simp [h1]
    · have : s.m_indices[d]? = none := List.getElem?_eq_none (by
        simp only [PartitionerBase.Dimension] at h1; omega)
      simp [this]
  · intro x hx
    rw [hT, hout2 x (fun h2 => hdisj x hx h2)]
    exact hin1 x hx
  · intro x hx
    rw [hT]
    exact hin2 x hx
  · intro x hx
    have h1 : x ∉ slice split b pivot :=
      fun h => hx ((mem_split_iff split b e pivot hbp hpe x).mpr (Or.inl h))
    have h2 : x ∉ slice split pivot e :=
      fun h => hx ((mem_split_iff split b e pivot hbp hpe x).mpr (Or.inr h))
    rw [hT, hout2 x h2, hout1 x h1]

/-- On a valid call, `sort_indices` returns, keeps every buffer at length `N`, leaves
the split axis alone and replaces every other axis by its stable partition. -/
theorem sort_indices_refines (s : PartitionerBase) (N dimension b e pivot : Nat)
    (split : List Nat) (hsplit : s.m_indices[dimension]? = some split)
    (hws : WellSized s N) (hact : ActiveRange s N b e)
    (hbp : b ≤ pivot) (hpe : pivot ≤ e) (heN : e ≤ N) :
    ∃ s', sort_indices s dimension b e pivot = .ok s' ∧
      s'.m_tmp.length = N ∧ s'.m_tags.length = N ∧
      s'.m_indices.length = s.m_indices.length ∧
      ∀ d, s'.m_indices[d]? = (s.m_indices[d]?).map
        (fun v => if d = dimension then v else stable_split split v b e pivot) := by
  obtain ⟨s', h1, h2, h3, h4, h5, _⟩ :=
    sort_indices_refines_tags s N dimension b e pivot split hsplit hws hact hbp hpe heN
  exact ⟨s', h1, h2, h3, h4, h5⟩

/-! ## Properties of the stable partition -/

theorem right_count (split v : List Nat) (b e pivot : Nat) (hbp : b ≤ pivot) (hpe : pivot ≤ e)
    (hes : e ≤ split.length) (hev : e ≤ v.length)
    (hnds : (slice split b e).Nodup) (hndv : (slice v b e).Nodup)
    (h1 : ∀ x ∈ slice v b e, x ∈ slice split b e)
    (h2 : ∀ x ∈ slice split b e, x ∈ slice v b e) :
    ((slice v b e).filter (fun x => decide (x ∈ slice split pivot e))).length = e - pivot := by
  have hl := left_count split v b e pivot hbp hpe hes hnds hndv h1 h2
  have ha := filter_length_add (fun x => decide (x ∈ slice split b pivot)) (slice v b e)
  rw [right_filter split v b e pivot hbp hpe hnds h1, hl, slice_length v b e hev] at ha
  omega

theorem getElem?_append3 {α : Type} (X M M' Y : List α) (j : Nat) (hM : M.length = M'.length)
    (hj : j < X.length ∨ X.length + M.length ≤ j) :
    (X ++ M ++ Y)[j]? = (X ++ M' ++ Y)[j]? := by
  rcases hj with hj | hj
  · rw [List.append_assoc, List.append_assoc, List.getElem?_append_left hj,
      List.getElem?_append_left hj]
  · rw [List.getElem?_append_right (by simp; omega), List.getElem?_append_right (by simp; omega)]
    simp [hM]

/-- The parts of a stable partition of an active range. -/
theorem stable_split_parts (split v : List Nat) (b e pivot : Nat) (hbp : b ≤ pivot)
    (hpe : pivot ≤ e) (hes : e ≤ split.length) (hev : e ≤ v.length)
    (hnds : (slice split b e).Nodup) (hndv : (slice v b e).Nodup)
    (h1 : ∀ x ∈ slice v b e, x ∈ slice split b e)
    (h2 : ∀ x ∈ slice split b e, x ∈ slice v b e) :
    (stable_split split v b e pivot).length = v.length ∧
    slice (stable_split split v b e pivot) b pivot
      = (slice v b e).filter (fun x => decide (x ∈ slice split b pivot)) ∧
    slice (stable_split split v b e pivot) pivot e
      = (slice v b e).filter (fun x => decide (x ∈ slice split pivot e)) ∧
    (∀ j, j < b ∨ e ≤ j → (stable_split split v b e pivot)[j]? = v[j]?) := by
  have hl := left_count split v b e pivot hbp hpe hes hnds hndv h1 h2
  have hr := right_count split v b e pivot hbp hpe hes hev hnds hndv h1 h2
  have hX : (v.take b).length = b := by simp; omega
  refine ⟨?_, ?_, ?_, ?_⟩
  · simp [stable_split, hl, hr]; omega
  · unfold stable_split
    rw [List.append_assoc, List.append_assoc, ← List.append_assoc]
    exact slice_mid _ _ _ b pivot hX hl hbp
  · unfold stable_split
    exact slice_mid _ _ _ pivot e (by simp [hl]; omega) hr hpe
  · intro j hj
    have hv := take_slice_drop v b e (by omega)
    conv => rhs; rw [← hv]
    unfold stable_split
    rw [List.append_assoc (v.take b)]
    apply getElem?_append3
    · simp [hl, hr, slice_length v b e hev]; omega
    · simp only [hX, List.length_append, hl, hr]
      omega

theorem stable_split_perm_left (split v : List Nat) (b e pivot : Nat) (hbp : b ≤ pivot)
    (hpe : pivot ≤ e) (hnds : (slice split b e).Nodup) (hndv : (slice v b e).Nodup)
    (h1 : ∀ x ∈ slice v b e, x ∈ slice split b e)
    (h2 : ∀ x ∈ slice split b e, x ∈ slice v b e) :
    ((slice v b e).filter (fun x => decide (x ∈ slice split b pivot))).Perm
      (slice split b pivot) := by
  have hperm : (slice v b e).Perm (slice split b e) :=
    (List.perm_ext_iff_of_nodup hndv hnds).mpr (fun x => ⟨h1 x, h2 x⟩)
  refine (hperm.filter _).trans ?_
  rw [← slice_append split b pivot e hbp hpe, List.filter_append]
  have hl : (slice split b pivot).filter (fun x => decide (x ∈ slice split b pivot))
      = slice split b pivot := by
    rw [List.filter_eq_self]
    intro x hx
    simpa using hx
  have hr : (slice split pivot e).filter (fun x => decide (x ∈ slice split b pivot)) = [] := by
    rw [List.filter_eq_nil_iff]
    intro x hx
    simp only [decide_eq_true_eq]
    exact fun h => split_disjoint split b e pivot hbp hpe hnds x h hx
  rw [hl, hr, List.append_nil]

theorem stable_split_perm_right (split v : List Nat) (b e pivot : Nat) (hbp : b ≤ pivot)
    (hpe : pivot ≤ e) (hnds : (slice split b e).Nodup) (hndv : (slice v b e).Nodup)
    (h1 : ∀ x ∈ slice v b e, x ∈ slice split b e)
    (h2 : ∀ x ∈ slice split b e, x ∈ slice v b e) :
    ((slice v b e).filter (fun x => decide (x ∈ slice split pivot e))).Perm
      (slice split pivot e) := by
  have hperm : (slice v b e).Perm (slice split b e) :=
    (List.perm_ext_iff_of_nodup hndv hnds).mpr (fun x => ⟨h1 x, h2 x⟩)
  refine (hperm.filter _).trans ?_
  rw [← slice_append split b pivot e hbp hpe, List.filter_append]
  have hr : (slice split pivot e).filter (fun x => decide (x ∈ slice split pivot e))
      = slice split pivot e := by
    rw [List.filter_eq_self]
    intro x hx
    simpa using hx
  have hl : (slice split b pivot).filter (fun x => decide (x ∈ slice split pivot e)) = [] := by
    rw [List.filter_eq_nil_iff]
    intro x hx
    simp only [decide_eq_true_eq]
    exact fun h => split_disjoint split b e pivot hbp hpe hnds x hx h
  rw [hl, hr, List.nil_append]

theorem stable_split_perm (split v : List Nat) (b e pivot : Nat) (hbp : b ≤ pivot)
    (hpe : pivot ≤ e) (hnds : (slice split b e).Nodup)
    (h1 : ∀ x ∈ slice v b e, x ∈ slice split b e) :
    (stable_split split v b e pivot).Perm v := by
  have hv := take_slice_drop v b e (by omega)
  conv => rhs; rw [← hv]
  unfold stable_split
  rw [List.append_assoc (v.take b)]
  refine List.Perm.append_right _ (List.Perm.append_left _ ?_)
  rw [← right_filter split v b e pivot hbp hpe hnds h1]
  have := List.filter_append_perm (fun x => decide (x ∈ slice split b pivot)) (slice v b e)
  simpa using this

/-! ## The call, axis by axis -/

theorem axis_eq (s : PartitionerBase) (d : Nat) (h : d < s.Dimension) :
    s.m_indices[d]? = some (s.axis d) := by
  have h2 : d < s.m_indices.length := h
  simp [PartitionerBase.axis, List.getD_eq_getElem?_getD, List.getElem?_eq_getElem h2]

theorem axis_mem (s : PartitionerBase) (d : Nat) (h : d < s.Dimension) :
    s.axis d ∈ s.m_indices :=
  mem_of_getElem?_eq _ _ _ (axis_eq s d h)

theorem sort_indices_axes (s : PartitionerBase) (N dimension b e pivot : Nat)
    (hws : WellSized s N) (hact : ActiveRange s N b e) (hdim : dimension < s.Dimension)
    (hbp : b ≤ pivot) (hpe : pivot ≤ e) (heN : e ≤ N) :
    ∃ s', sort_indices s dimension b e pivot = .ok s' ∧
      s'.m_tmp.length = N ∧ s'.m_tags.length = N ∧ s'.Dimension = s.Dimension ∧
      ∀ d, d < s.Dimension → s'.axis d =
        if d = dimension then s.axis d else stable_split (s.axis dimension) (s.axis d) b e pivot := by
  obtain ⟨s', hrun, h1, h2, h3, h4⟩ := sort_indices_refines s N dimension b e pivot
    (s.axis dimension) (axis_eq s dimension hdim) hws hact hbp hpe heN
  refine ⟨s', hrun, h1, h2, h3, ?_⟩
  intro d hd
  have h5 := h4 d
  rw [axis_eq s d hd] at h5
  simp only [PartitionerBase.axis, List.getD_eq_getElem?_getD, h5, Option.map_some',
    Option.getD_some]

theorem valid_axis_facts (s : PartitionerBase) (N dimension b e d : Nat)
    (hws : WellSized s N) (hact : ActiveRange s N b e) (hdim : dimension < s.Dimension)
    (hd : d < s.Dimension) :
    (s.axis dimension).length = N ∧ (s.axis d).length = N ∧
    (slice (s.axis dimension) b e).Nodup ∧ (slice (s.axis d) b e).Nodup ∧
    (∀ x ∈ slice (s.axis d) b e, x ∈ slice (s.axis dimension) b e) ∧
    (∀ x ∈ slice (s.axis dimension) b e, x ∈ slice (s.axis d) b e) :=
  ⟨hws.1 _ (axis_mem s dimension hdim), hws.1 _ (axis_mem s d hd),
    hact.1 _ (axis_mem s dimension hdim), hact.1 _ (axis_mem s d hd),
    hact.2.2 _ (axis_mem s d hd) _ (axis_mem s dimension hdim),
    hact.2.2 _ (axis_mem s dimension hdim) _ (axis_mem s d hd)⟩

/-- After a valid call every axis holds, in `[b, pivot)`, a permutation of the left group
of the split axis and, in `[pivot, e)`, a permutation of its right group. -/
theorem sort_indices_groups (s : PartitionerBase) (N dimension b e pivot : Nat)
    (hws : WellSized s N) (hact : ActiveRange s N b e) (hdim : dimension < s.Dimension)
    (hbp : b ≤ pivot) (hpe : pivot ≤ e) (heN : e ≤ N) :
    ∃ s', sort_indices s dimension b e pivot = .ok s' ∧
      WellSized s' N ∧ s'.Dimension = s.Dimension ∧
      ∀ d, d < s.Dimension →
        (s'.axis d).length = N ∧
        (s'.axis d).Perm (s.axis d) ∧
        (∀ j, j < b ∨ e ≤ j → (s'.axis d)[j]? = (s.axis d)[j]?) ∧
        (slice (s'.axis d) b pivot).Sublist (slice (s.axis d) b e) ∧
        (slice (s'.axis d) pivot e).Sublist (slice (s.axis d) b e) ∧
        (slice (s'.axis d) b pivot).Perm (slice (s.axis dimension) b pivot) ∧
        (slice (s'.axis d) pivot e).Perm (slice (s.axis dimension) pivot e) := by
  obtain ⟨s', hrun, ht1, ht2, hD, hax⟩ :=
    sort_indices_axes s N dimension b e pivot hws hact hdim hbp hpe heN
  have main : ∀ d, d < s.Dimension →
        (s'.axis d).length = N ∧
        (s'.axis d).Perm (s.axis d) ∧
        (∀ j, j < b ∨ e ≤ j → (s'.axis d)[j]? = (s.axis d)[j]?) ∧
        (slice (s'.axis d) b pivot).Sublist (slice (s.axis d) b e) ∧
        (slice (s'.axis d) pivot e).Sublist (slice (s.axis d) b e) ∧
        (slice (s'.axis d) b pivot).Perm (slice (s.axis dimension) b pivot) ∧
        (slice (s'.axis d) pivot e).Perm (slice (s.axis dimension) pivot e) := by
    intro d hd
    obtain ⟨l1, l2, n1, n2, m1, m2⟩ := valid_axis_facts s N dimension b e d hws hact hdim hd
    by_cases hne : d = dimension
    · rw [hax d hd, if_pos hne, hne]
      refine ⟨l1, List.Perm.refl _, fun _ _ => rfl, slice_mono_sublist _ _ _ _ hbp hpe, ?_,
        List.Perm.refl _, List.Perm.refl _⟩
      rw [← slice_append (s.axis dimension) b pivot e hbp hpe]
      exact List.sublist_append_right _ _
    · obtain ⟨hlen, hL, hR, hout⟩ := stable_split_parts (s.axis dimension) (s.axis d) b e pivot
        hbp hpe (by omega) (by omega) n1 n2 m1 m2
      rw [hax d hd, if_neg hne, hL, hR]
      exact ⟨by omega, stable_split_perm _ _ _ _ _ hbp hpe n1 m1, hout,
        List.filter_sublist _, List.filter_sublist _,
        stable_split_perm_left _ _ _ _ _ hbp hpe n1 n2 m1 m2,
        stable_split_perm_right _ _ _ _ _ hbp hpe n1 n2 m1 m2⟩
  refine ⟨s', hrun, ⟨?_, ht1, ht2⟩, hD, main⟩
  intro v hv
  obtain ⟨d, hd, rfl⟩ := List.getElem_of_mem hv
  have hd2 : d < s.Dimension := by rw [← hD]; exact hd
  have := (main d hd2).1
  have hx : s'.axis d = s'.m_indices[d] := by
    have := axis_eq s' d hd
    rw [List.getElem?_eq_getElem hd] at this
    exact (Option.some.inj this).symm
  rw [← hx]
  exact this

/-! ## Sortedness and the comparator -/

/-- The comparator on two items that have boxes: smaller key first, and for equal keys
smaller index first. -/
theorem predicate_true_iff {B K : Type} [LinearOrder K] (key : B → Nat → K) (bboxes : List B)
    (d i j : Nat) (a b : B) (hi : bboxes[i]? = some a) (hj : bboxes[j]? = some b) :
    BboxSortPredicate key bboxes d i j = true ↔
      key a d < key b d ∨ (key a d = key b d ∧ i < j) := by
  simp [BboxSortPredicate, hi, hj]

theorem predicate_false_imp {B K : Type} [LinearOrder K] (key : B → Nat → K) (bboxes : List B)
    (d i j : Nat) (h : BboxSortPredicate key bboxes d j i = false) :
    ∀ a b, bboxes[i]? = some a → bboxes[j]? = some b → key a d ≤ key b d := by
  intro a b hi hj
  have h2 : ¬ (key b d < key a d ∨ (key b d = key a d ∧ j < i)) := by
    rw [← predicate_true_iff key bboxes d j i b a hj hi, h]
    exact Bool.false_ne_true
  exact not_lt.mp (fun hlt => h2 (Or.inl hlt))

/-- A list in which no element precedes (for the comparator) an earlier one is sorted by
key. -/
theorem sortedOnAxis_of_pairwise {B K : Type} [LinearOrder K] (key : B → Nat → K)
    (bboxes : List B) (d : Nat) (l : List Nat)
    (h : l.Pairwise (fun i j => BboxSortPredicate key bboxes d j i = false)) :
    SortedOnAxis key bboxes d l := by
  unfold SortedOnAxis
  exact h.imp (fun {i j} hij => predicate_false_imp key bboxes d i j hij)

/-! ## A conforming `std::sort` -/

theorem orderedInsert_pairwise_on (r : Nat → Nat → Prop) [DecidableRel r] (S : Nat → Prop)
    (htot : ∀ x y, S x → S y → r x y ∨ r y x)
    (htr : ∀ x y z, S x → S y → S z → r x y → r y z → r x z) (a : Nat) (ha : S a) :
    ∀ l : List Nat, (∀ x ∈ l, S x) → l.Pairwise r → (l.orderedInsert r a).Pairwise r := by
  intro l
  induction l with
  | nil => intro _ _; simp
  | cons b l ih =>
    intro hl hp
    have hb : S b := hl b (List.mem_cons_self _ _)
    have hl2 : ∀ x ∈ l, S x := fun x hx => hl x (List.mem_cons_of_mem _ hx)
    rw [List.pairwise_cons] at hp
    rw [List.orderedInsert]
    split_ifs with h
    · refine List.pairwise_cons.mpr ⟨?_, List.pairwise_cons.mpr hp⟩
      intro y hy
      rcases List.mem_cons.mp hy with rfl | hy
      · exact h
      · exact htr a b y ha hb (hl2 y hy) h (hp.1 y hy)
    · refine List.pairwise_cons.mpr ⟨?_, ih hl2 hp.2⟩
      intro y hy
      rcases (List.mem_orderedInsert r).mp hy with rfl | hy
      · exact (htot _ _ ha hb).resolve_left h
      · exact hp.1 y hy

theorem insertionSort_pairwise_on (r : Nat → Nat → Prop) [DecidableRel r] (S : Nat → Prop)
    (htot : ∀ x y, S x → S y → r x y ∨ r y x)
    (htr : ∀ x y z, S x → S y → S z → r x y → r y z → r x z) :
    ∀ l : List Nat, (∀ x ∈ l, S x) → (l.insertionSort r).Pairwise r := by
  intro l
  induction l with
  | nil => intro _; simp
  | cons a l ih =>
    intro hl
    show (List.orderedInsert r a (List.insertionSort r l)).Pairwise r
    exact orderedInsert_pairwise_on r S htot htr a (hl a (List.mem_cons_self _ _)) _
      (fun x hx => hl x (List.mem_cons_of_mem _ ((List.mem_insertionSort r).mp hx)))
      (ih (fun x hx => hl x (List.mem_cons_of_mem _ hx)))

/-- Insertion sort meets the contract of `std::sort`. -/
theorem insertion_sort_spec : StdSortSpec insertion_sort := by
  intro comp l ⟨hirr, htrans, heqv⟩
  refine ⟨List.perm_insertionSort _ l, ?_⟩
  have hasym : ∀ x y, x ∈ l → y ∈ l → comp x y = true → comp y x = true → False := by
    intro x y hx hy h1 h2
    have := htrans x hx y hy x hx h1 h2
    rw [hirr x hx] at this
    exact Bool.noConfusion this
  apply insertionSort_pairwise_on (fun a b => comp b a = false) (fun x => x ∈ l)
  · intro x y hx hy
    by_cases h : comp y x = true
    · right
      cases h2 : comp x y with
      | false => rfl
      | true => exact (hasym x y hx hy h2 h).elim
    · left
      simpa using h
  · intro x y z hx hy hz hxy hyz
    show comp z x = false
    cases hzx : comp z x with
    | false => rfl
    | true =>
      exfalso
      have h1 : comp x y = false := by
        cases h : comp x y with
        | false => rfl
        | true =>
          have := htrans z hz x hx y hy hzx h
          rw [hyz] at this
          exact Bool.noConfusion this
      have h2 : comp y z = false := by
        cases h : comp y z with
        | false => rfl
        | true =>
          have := htrans y hy z hz x hx h hzx
          rw [hxy] at this
          exact Bool.noConfusion this
      have := (heqv x hx y hy z hz h1 hxy h2 hyz).2
      rw [hzx] at this
      exact Bool.noConfusion this
  · exact fun x hx => hx

/-! ## Initialization -/

theorem resize_length (v : List Nat) (n : Nat) : (resize v n).length = n := by
  simp [resize]; omega

theorem identity_fold (w : List Nat) :
    ∀ k, k ≤ w.length →
      ((List.range k).foldl (fun v i => v.set i i) w).length = w.length ∧
      ∀ j, ((List.range k).foldl (fun v i => v.set i i) w)[j]? =
        if j < k then some j else w[j]? := by
  intro k
  induction k with
  | zero => intro _; simp
  | succ k ih =>
    intro hk
    obtain ⟨hl, hp⟩ := ih (by omega)
    rw [List.range_succ, List.foldl_append]
    simp only [List.foldl_cons, List.foldl_nil]
    refine ⟨by simpa using hl, ?_⟩
    intro j
    rw [List.getElem?_set, hl]
    by_cases hkj : k = j
    · subst hkj
      have : k < w.length := by omega
      simp [this]
    · rw [if_neg hkj, hp j]
      by_cases h1 : j < k
      · have : j < k + 1 := by omega
        simp [h1, this]
      · have : ¬ j < k + 1 := by omega
        simp [h1, this]

theorem identity_ordering_eq (v : List Nat) (n : Nat) : identity_ordering v n = List.range n := by
  obtain ⟨hl, hp⟩ := identity_fold (resize v n) n (by rw [resize_length])
  apply List.ext_getElem?
  intro j
  unfold identity_ordering
  rw [hp j]
  by_cases h : j < n
  · simp [h, List.getElem?_range h]
  · have h1 : (resize v n)[j]? = none := List.getElem?_eq_none (by rw [resize_length]; omega)
    have h2 : (List.range n)[j]? = none := List.getElem?_eq_none (by simp; omega)
    simp [h, h1, h2]

theorem axes_fold (f : Nat → List Nat → List Nat) (m0 : List (List Nat)) :
    ∀ k, k ≤ m0.length →
      ((List.range k).foldl (fun m d => m.set d (f d (m.getD d []))) m0).length = m0.length ∧
      ∀ d, ((List.range k).foldl (fun m d => m.set d (f d (m.getD d []))) m0)[d]? =
        if d < k then some (f d (m0.getD d [])) else m0[d]? := by
  intro k
  induction k with
  | zero => intro _; simp
  | succ k ih =>
    intro hk
    obtain ⟨hl, hp⟩ := ih (by omega)
    rw [List.range_succ, List.foldl_append]
    simp only [List.foldl_cons, List.foldl_nil]
    refine ⟨by simpa using hl, ?_⟩
    intro d
    rw [List.getElem?_set, hl]
    by_cases hkd : k = d
    · subst hkd
      have h1 : k < m0.length := by omega
      have h2 := hp k
      simp only [lt_irrefl, if_false] at h2
      simp only [if_true, h1, Nat.lt_succ_self]
      rw [List.getD_eq_getElem?_getD, h2, ← List.getD_eq_getElem?_getD]
    · rw [if_neg hkd, hp d]
      by_cases h1 : d < k
      · have : d < k + 1 := by omega
        simp [h1, this]
      · have : ¬ d < k + 1 := by omega
        simp [h1, this]

theorem predicate_strictWeakOn {B K : Type} [LinearOrder K] (key : B → Nat → K)
    (bboxes : List B) (d : Nat) :
    StrictWeakOn (BboxSortPredicate key bboxes d) (List.range bboxes.length) := by
  have hval : ∀ a ∈ List.range bboxes.length, ∃ x, bboxes[a]? = some x := by
    intro a ha
    have : a < bboxes.length := List.mem_range.mp ha
    exact ⟨bboxes[a], List.getElem?_eq_getElem this⟩
  have hfalse : ∀ (i j : Nat) (x y : B), bboxes[i]? = some x → bboxes[j]? = some y →
      (BboxSortPredicate key bboxes d i j = false ↔
        ¬ (key x d < key y d ∨ (key x d = key y d ∧ i < j))) := by
    intro i j x y hx hy
    rw [← predicate_true_iff key bboxes d i j x y hx hy]
    cases BboxSortPredicate key bboxes d i j <;> simp
  refine ⟨?_, ?_, ?_⟩
  · intro a ha
    obtain ⟨x, hx⟩ := hval a ha
    rw [hfalse a a x x hx hx]
    rintro (h | ⟨_, h⟩)
    · exact lt_irrefl _ h
    · exact Nat.lt_irrefl _ h
  · intro a ha b hb c hc
    obtain ⟨x, hx⟩ := hval a ha
    obtain ⟨y, hy⟩ := hval b hb
    obtain ⟨z, hz⟩ := hval c hc
    rw [predicate_true_iff key bboxes d a b x y hx hy,
      predicate_true_iff key bboxes d b c y z hy hz,
      predicate_true_iff key bboxes d a c x z hx hz]
    intro h1 h2
    rcases h1 with h1 | ⟨h1, h1'⟩ <;> rcases h2 with h2 | ⟨h2, h2'⟩
    · exact Or.inl (lt_trans h1 h2)
    · exact Or.inl (h2 ▸ h1)
    · exact Or.inl (h1 ▸ h2)
    · exact Or.inr ⟨h1.trans h2, Nat.lt_trans h1' h2'⟩
  · intro a ha b hb c hc
    obtain ⟨x, hx⟩ := hval a ha
    obtain ⟨y, hy⟩ := hval b hb
    obtain ⟨z, hz⟩ := hval c hc
    rw [hfalse a b x y hx hy, hfalse b a y x hy hx, hfalse b c y z hy hz,
      hfalse c b z y hz hy, hfalse a c x z hx hz, hfalse c a z x hz hx]
    intro n1 n2 n3 n4
    have kab : key x d = key y d :=
      le_antisymm (not_lt.mp (fun h => n2 (Or.inl h))) (not_lt.mp (fun h => n1 (Or.inl h)))
    have kbc : key y d = key z d :=
      le_antisymm (not_lt.mp (fun h => n4 (Or.inl h))) (not_lt.mp (fun h => n3 (Or.inl h)))
    have ab1 : ¬ a < b := fun h => n1 (Or.inr ⟨kab, h⟩)
    have ab2 : ¬ b < a := fun h => n2 (Or.inr ⟨kab.symm, h⟩)
    have bc1 : ¬ b < c := fun h => n3 (Or.inr ⟨kbc, h⟩)
    have bc2 : ¬ c < b := fun h => n4 (Or.inr ⟨kbc.symm, h⟩)
    have kac : key x d = key z d := kab.trans kbc
    constructor
    · rintro (h | ⟨_, h⟩)
      · rw [kac] at h
        exact lt_irrefl _ h
      · omega
    · rintro (h | ⟨_, h⟩)
      · rw [kac] at h
        exact lt_irrefl _ h
      · omega

/-- What the initialization leaves in the state. -/
theorem initialize_state {B K : Type} [LinearOrder K]
    (stdsort : (Nat → Nat → Bool) → List Nat → List Nat) (hsort : StdSortSpec stdsort)
    (key : B → Nat → K) (s0 : PartitionerBase) (bboxes : List B) :
    (initialize_ stdsort key s0 bboxes).Dimension = s0.Dimension ∧
    (initialize_ stdsort key s0 bboxes).m_tmp.length = bboxes.length ∧
    (initialize_ stdsort key s0 bboxes).m_tags.length = bboxes.length ∧
    ∀ d, d < s0.Dimension →
      (initialize_ stdsort key s0 bboxes).axis d
        = stdsort (BboxSortPredicate key bboxes d) (List.range bboxes.length) ∧
      ((initialize_ stdsort key s0 bboxes).axis d).Perm (List.range bboxes.length) ∧
      SortedOnAxis key bboxes d ((initialize_ stdsort key s0 bboxes).axis d) := by
  obtain ⟨hl, hp⟩ := axes_fold
    (fun d v => stdsort (BboxSortPredicate key bboxes d) (identity_ordering v bboxes.length))
    s0.m_indices s0.m_indices.length (le_refl _)
  refine ⟨hl, resize_length _ _, resize_length _ _, ?_⟩
  intro d hd
  have hd2 : d < s0.m_indices.length := hd
  have hax : (initialize_ stdsort key s0 bboxes).axis d
        = stdsort (BboxSortPredicate key bboxes d) (List.range bboxes.length) := by
    have := hp d
    simp only [hd2, if_true, identity_ordering_eq] at this
    simp only [PartitionerBase.axis, initialize_, PartitionerBase.Dimension,
      List.getD_eq_getElem?_getD, identity_ordering_eq, this, Option.getD_some]
  obtain ⟨h1, h2⟩ := hsort _ _ (predicate_strictWeakOn key bboxes d)
  rw [hax]
  exact ⟨rfl, h1, sortedOnAxis_of_pairwise key bboxes d _ h2⟩

/-! ## Active ranges, axis by axis -/

theorem mem_axes_iff (s : PartitionerBase) (v : List Nat) :
    v ∈ s.m_indices ↔ ∃ d, d < s.Dimension ∧ s.axis d = v := by
  constructor
  · intro hv
    obtain ⟨d, hd, rfl⟩ := List.getElem_of_mem hv
    refine ⟨d, hd, ?_⟩
    have := axis_eq s d hd
    rw [List.getElem?_eq_getElem hd] at this
    exact Option.some.inj this.symm
  · rintro ⟨d, hd, rfl⟩
    exact axis_mem s d hd

theorem activeRange_iff (s : PartitionerBase) (N b e : Nat) :
    ActiveRange s N b e ↔
      ∀ d, d < s.Dimension → (slice (s.axis d) b e).Nodup ∧
        (∀ x ∈ slice (s.axis d) b e, x < N) ∧
        ∀ d', d' < s.Dimension → ∀ x ∈ slice (s.axis d) b e, x ∈ slice (s.axis d') b e := by
  constructor
  · intro ⟨h1, h2, h3⟩ d hd
    exact ⟨h1 _ (axis_mem s d hd), h2 _ (axis_mem s d hd),
      fun d' hd' => h3 _ (axis_mem s d hd) _ (axis_mem s d' hd')⟩
  · intro h
    refine ⟨?_, ?_, ?_⟩
    · intro v hv
      obtain ⟨d, hd, rfl⟩ := (mem_axes_iff s v).mp hv
      exact (h d hd).1
    · intro v hv
      obtain ⟨d, hd, rfl⟩ := (mem_axes_iff s v).mp hv
      exact (h d hd).2.1
    · intro v hv w hw
      obtain ⟨d, hd, rfl⟩ := (mem_axes_iff s v).mp hv
      obtain ⟨d', hd', rfl⟩ := (mem_axes_iff s w).mp hw
      exact (h d hd).2.2 d' hd'

/-- A range whose contents did not change stays active. -/
theorem activeRange_of_slices_eq (s s' : PartitionerBase) (N b e : Nat)
    (hD : s'.Dimension = s.Dimension)
    (h : ∀ d, d < s.Dimension → slice (s'.axis d) b e = slice (s.axis d) b e)
    (hact : ActiveRange s N b e) : ActiveRange s' N b e := by
  rw [activeRange_iff] at hact ⊢
  intro d hd
  rw [hD] at hd
  obtain ⟨h1, h2, h3⟩ := hact d hd
  rw [h d hd]
  refine ⟨h1, h2, ?_⟩
  intro d' hd'
  rw [hD] at hd'
  rw [h d' hd']
  exact h3 d' hd'

/-- A range on which every axis holds a sublist of an active range and a permutation of
one common list is active. -/
theorem activeRange_of_groups (s s' : PartitionerBase) (N b e b' e' : Nat) (g : List Nat)
    (hD : s'.Dimension = s.Dimension)
    (hsub : ∀ d, d < s.Dimension → (slice (s'.axis d) b' e').Sublist (slice (s.axis d) b e))
    (hperm : ∀ d, d < s.Dimension → (slice (s'.axis d) b' e').Perm g)
    (hact : ActiveRange s N b e) : ActiveRange s' N b' e' := by
  rw [activeRange_iff] at hact ⊢
  intro d hd
  rw [hD] at hd
  obtain ⟨h1, h2, _⟩ := hact d hd
  refine ⟨h1.sublist (hsub d hd), fun x hx => h2 x ((hsub d hd).subset hx), ?_⟩
  intro d' hd' x hx
  rw [hD] at hd'
  exact (hperm d' hd').symm.subset ((hperm d hd).subset hx)

/-! ## The build invariant -/

theorem slice_full {α : Type} (v : List α) (n : Nat) (h : v.length = n) : slice v 0 n = v := by
  rw [slice_zero, ← h, List.take_length]

theorem invariant_init {B K : Type} [LinearOrder K]
    (stdsort : (Nat → Nat → Bool) → List Nat → List Nat) (hsort : StdSortSpec stdsort)
    (key : B → Nat → K) (s0 : PartitionerBase) (bboxes : List B) :
    BuildInvariant key bboxes
      { state := initialize_ stdsort key s0 bboxes, ranges := [(0, bboxes.length)] } := by
  obtain ⟨hD, ht1, ht2, h⟩ := initialize_state stdsort hsort key s0 bboxes
  have hperm : ∀ v ∈ (initialize_ stdsort key s0 bboxes).m_indices,
      v.Perm (List.range bboxes.length) := by
    intro v hv
    obtain ⟨d, hd, rfl⟩ := (mem_axes_iff _ v).mp hv
    exact (h d (by rw [← hD]; exact hd)).2.1
  have hlen : ∀ v ∈ (initialize_ stdsort key s0 bboxes).m_indices, v.length = bboxes.length := by
    intro v hv
    rw [(hperm v hv).length_eq, List.length_range]
  refine ⟨⟨hlen, ht1, ht2⟩, hperm, List.pairwise_singleton _ _, ?_⟩
  intro r hr
  rw [List.mem_singleton] at hr
  subst hr
  refine ⟨Nat.zero_le _, le_refl _, ⟨?_, ?_, ?_⟩, ?_⟩
  · intro v hv
    rw [slice_full v _ (hlen v hv)]
    exact (hperm v hv).nodup_iff.mpr (List.nodup_range _)
  · intro v hv x hx
    rw [slice_full v _ (hlen v hv)] at hx
    exact List.mem_range.mp ((hperm v hv).subset hx)
  · intro v hv w hw x hx
    rw [slice_full v _ (hlen v hv)] at hx
    rw [slice_full w _ (hlen w hw)]
    exact (hperm w hw).symm.subset ((hperm v hv).subset hx)
  · intro d hd
    have hd0 : d < s0.Dimension := by rw [← hD]; exact hd
    show SortedOnAxis key bboxes d (slice ((initialize_ stdsort key s0 bboxes).axis d) 0 bboxes.length)
    rw [slice_full _ _ (hlen _ (axis_mem _ d hd))]
    exact (h d hd0).2.2

theorem invariant_split {B K : Type} [LinearOrder K] (key : B → Nat → K) (bboxes : List B)
    (c : Config) (before after : List (Nat × Nat)) (b e dimension pivot : Nat)
    (s' : PartitionerBase) (hinv : BuildInvariant key bboxes c)
    (hranges : c.ranges = before ++ (b, e) :: after)
    (hdim : dimension < c.state.Dimension) (hbp : b ≤ pivot) (hpe : pivot ≤ e)
    (hrun : sort_indices c.state dimension b e pivot = .ok s') :
    BuildInvariant key bboxes
      { state := s', ranges := before ++ (b, pivot) :: (pivot, e) :: after } := by
  obtain ⟨hws, hperm, hpw, hr⟩ := hinv
  rw [hranges] at hpw hr
  obtain ⟨_, heN, hact, hsorted⟩ := hr (b, e) (by simp)
  obtain ⟨s'', hrun', hws', hD, hg⟩ :=
    sort_indices_groups c.state bboxes.length dimension b e pivot hws hact hdim hbp hpe heN
  rw [hrun] at hrun'
  have hs : s' = s'' := Except.ok.inj hrun'
  subst hs
  rw [List.pairwise_append, List.pairwise_cons] at hpw
  obtain ⟨hpb, ⟨hea, hpa⟩, hba⟩ := hpw
  have hkeep : ∀ r : Nat × Nat, r ∈ c.ranges → r.1 ≤ r.2 → (r.2 ≤ b ∨ e ≤ r.1) →
      ∀ d, d < c.state.Dimension →
        slice (s'.axis d) r.1 r.2 = slice (c.state.axis d) r.1 r.2 := by
    intro r _ _ hdis d hd
    apply slice_congr
    intro j h1 h2
    exact (hg d hd).2.2.1 j (by omega)
  have hold : ∀ r : Nat × Nat, r ∈ c.ranges → (r.2 ≤ b ∨ e ≤ r.1) →
      r.1 ≤ r.2 ∧ r.2 ≤ bboxes.length ∧ ActiveRange s' bboxes.length r.1 r.2 ∧
      ∀ d, d < s'.Dimension → SortedOnAxis key bboxes d (slice (s'.axis d) r.1 r.2) := by
    intro r hrm hdis
    obtain ⟨h1, h2, h3, h4⟩ := hr r (by rw [← hranges]; exact hrm)
    refine ⟨h1, h2, activeRange_of_slices_eq c.state s' _ _ _ hD (hkeep r hrm h1 hdis) h3, ?_⟩
    intro d hd
    rw [hD] at hd
    rw [hkeep r hrm h1 hdis d hd]
    exact h4 d hd
  refine ⟨hws', ?_, ?_, ?_⟩
  · intro v hv
    obtain ⟨d, hd, rfl⟩ := (mem_axes_iff s' v).mp hv
    rw [hD] at hd
    exact ((hg d hd).2.1).trans (hperm _ (axis_mem c.state d hd))
  · show (before ++ (b, pivot) :: (pivot, e) :: after).Pairwise (fun r1 r2 => r1.2 ≤ r2.1)
    rw [List.pairwise_append, List.pairwise_cons, List.pairwise_cons]
    refine ⟨hpb, ⟨?_, hea, hpa⟩, ?_⟩
    · intro r hrm
      rcases List.mem_cons.mp hrm with rfl | hrm
      · exact le_refl _
      · exact le_trans hpe (hea r hrm)
    · intro x hx y hy
      rcases List.mem_cons.mp hy with rfl | hy
      · exact hba x hx (b, e) (List.mem_cons_self _ _)
      · rcases List.mem_cons.mp hy with rfl | hy
        · exact le_trans (hba x hx (b, e) (List.mem_cons_self _ _)) hbp
        · exact hba x hx y (List.mem_cons_of_mem _ hy)
  · intro r hrm
    have hrm2 : r ∈ before ++ (b, pivot) :: (pivot, e) :: after := hrm
    rw [List.mem_append, List.mem_cons, List.mem_cons] at hrm2
    rcases hrm2 with hrm2 | rfl | rfl | hrm2
    · exact hold r (by rw [hranges]; simp [hrm2])
        (Or.inl (hba r hrm2 (b, e) (List.mem_cons_self _ _)))
    · refine ⟨hbp, by omega, ?_, ?_⟩
      · exact activeRange_of_groups c.state s' _ b e b pivot _ hD
          (fun d hd => (hg d hd).2.2.2.1) (fun d hd => (hg d hd).2.2.2.2.2.1) hact
      · intro d hd
        rw [hD] at hd
        exact List.Pairwise.sublist (hg d hd).2.2.2.1 (hsorted d hd)
    · refine ⟨hpe, heN, ?_, ?_⟩
      · exact activeRange_of_groups c.state s' _ b e pivot e _ hD
          (fun d hd => (hg d hd).2.2.2.2.1) (fun d hd => (hg d hd).2.2.2.2.2.2) hact
      · intro d hd
        rw [hD] at hd
        exact List.Pairwise.sublist (hg d hd).2.2.2.2.1 (hsorted d hd)
    · exact hold r (by rw [hranges]; simp [hrm2]) (Or.inr (hea r hrm2))

/-- Every reachable configuration satisfies the build invariant. -/
theorem reachable_invariant {B K : Type} [LinearOrder K]
    (stdsort : (Nat → Nat → Bool) → List Nat → List Nat) (hsort : StdSortSpec stdsort)
    (key : B → Nat → K) (s0 : PartitionerBase) (bboxes : List B) (c : Config)
    (hreach : Reachable stdsort key s0 bboxes c) : BuildInvariant key bboxes c := by
  induction hreach with
  | init => exact invariant_init stdsort hsort key s0 bboxes
  | split c before after b e dimension pivot s' _ hranges hdim hbp hpe hrun ih =>
    exact invariant_split key bboxes c before after b e dimension pivot s' ih hranges hdim hbp
      hpe hrun

/-! ## Contract of `sort_indices` -/

/-- C1 (stable partition). On a state whose vectors all have length `N` and whose range
`[begin, end)` is active, a call `sort_indices(s, begin, end, pivot)` with
`begin <= pivot <= end <= N` returns, and for every axis `d != s` the new
`indices[d][begin, pivot)` is the old `indices[d][begin, end)` filtered, order kept, to the
elements of the old `indices[s][begin, pivot)`, and the new `indices[d][pivot, end)` is
the old `indices[d][begin, end)` filtered, order kept, to the elements of the old
`indices[s][pivot, end)`. -/
theorem sort_indices_stable_partition (s : PartitionerBase) (N dimension begin_ end_ pivot : Nat)
    (hws : WellSized s N) (hact : ActiveRange s N begin_ end_)
    (hdim : dimension < s.Dimension)
    (hbp : begin_ ≤ pivot) (hpe : pivot ≤ end_) (heN : end_ ≤ N) :
    ∃ s', sort_indices s dimension begin_ end_ pivot = .ok s' ∧
      ∀ d, d < s.Dimension → d ≠ dimension →
        slice (s'.axis d) begin_ pivot
          = (slice (s.axis d) begin_ end_).filter
              (fun x => decide (x ∈ slice (s.axis dimension) begin_ pivot)) ∧
        slice (s'.axis d) pivot end_
          = (slice (s.axis d) begin_ end_).filter
              (fun x => decide (x ∈ slice (s.axis dimension) pivot end_)) := by
  obtain ⟨s', hrun, _, _, _, hax⟩ :=
    sort_indices_axes s N dimension begin_ end_ pivot hws hact hdim hbp hpe heN
  refine ⟨s', hrun, ?_⟩
  intro d hd hne
  obtain ⟨l1, l2, n1, n2, m1, m2⟩ := valid_axis_facts s N dimension begin_ end_ d hws hact hdim hd
  obtain ⟨_, hL, hR, _⟩ := stable_split_parts (s.axis dimension) (s.axis d) begin_ end_ pivot
    hbp hpe (by omega) (by omega) n1 n2 m1 m2
  rw [hax d hd, if_neg hne]
  exact ⟨hL, hR⟩

/-- Witness for C1: the specification's scenario (axis-0 order `[1,3,0,2]`, axis-1 order
`[0,1,2,3]`, split of `[0,4)` on axis 0 at pivot 2); the new axis-1 order is `[1,3,0,2]`. -/
theorem sort_indices_stable_partition_witness :
    (∃ s', sort_indices scenario_state 0 0 4 2 = .ok s' ∧
      ∀ d, d < scenario_state.Dimension → d ≠ 0 →
        slice (s'.axis d) 0 2
          = (slice (scenario_state.axis d) 0 4).filter
              (fun x => decide (x ∈ slice (scenario_state.axis 0) 0 2)) ∧
        slice (s'.axis d) 2 4
          = (slice (scenario_state.axis d) 0 4).filter
              (fun x => decide (x ∈ slice (scenario_state.axis 0) 2 4))) ∧
    sort_indices scenario_state 0 0 4 2
      = .ok { m_indices := [[1, 3, 0, 2], [1, 3, 0, 2]], m_tmp := [0, 1, 2, 3],
              m_tags := [1, 0, 1, 0] } :=
  ⟨sort_indices_stable_partition scenario_state 4 0 0 4 2
      (by unfold WellSized; decide) (by unfold ActiveRange; decide)
      (by decide) (by decide) (by decide) (by decide),
    by rfl⟩

/-- C2 (set identity after one split). After a valid call on an active range, every two
axes `d1`, `d2` (the split axis included) hold the same multiset of indices in
`[begin, pivot)` and the same multiset in `[pivot, end)`. -/
theorem sort_indices_set_identity (s : PartitionerBase) (N dimension begin_ end_ pivot : Nat)
    (hws : WellSized s N) (hact : ActiveRange s N begin_ end_)
    (hdim : dimension < s.Dimension)
    (hbp : begin_ ≤ pivot) (hpe : pivot ≤ end_) (heN : end_ ≤ N) :
    ∃ s', sort_indices s dimension begin_ end_ pivot = .ok s' ∧
      ∀ d1, d1 < s.Dimension → ∀ d2, d2 < s.Dimension →
        (slice (s'.axis d1) begin_ pivot).Perm (slice (s'.axis d2) begin_ pivot) ∧
        (slice (s'.axis d1) pivot end_).Perm (slice (s'.axis d2) pivot end_) := by
  obtain ⟨s', hrun, _, _, h⟩ :=
    sort_indices_groups s N dimension begin_ end_ pivot hws hact hdim hbp hpe heN
  refine ⟨s', hrun, ?_⟩
  intro d1 h1 d2 h2
  obtain ⟨_, _, _, _, _, pl1, pr1⟩ := h d1 h1
  obtain ⟨_, _, _, _, _, pl2, pr2⟩ := h d2 h2
  exact ⟨pl1.trans pl2.symm, pr1.trans pr2.symm⟩

/-- Witness for C2: the scenario state, split of `[0,4)` on axis 0 at pivot 2. -/
theorem sort_indices_set_identity_witness :
    ∃ s', sort_indices scenario_state 0 0 4 2 = .ok s' ∧
      ∀ d1, d1 < scenario_state.Dimension → ∀ d2, d2 < scenario_state.Dimension →
        (slice (s'.axis d1) 0 2).Perm (slice (s'.axis d2) 0 2) ∧
        (slice (s'.axis d1) 2 4).Perm (slice (s'.axis d2) 2 4) :=
  sort_indices_set_identity scenario_state 4 0 0 4 2
    (by unfold WellSized; decide) (by unfold ActiveRange; decide)
    (by decide) (by decide) (by decide) (by decide)

/-- C3 (sortedness is preserved by one split). After a valid call on an active range, for
every axis `d` (the split axis included): if `indices[d][begin, end)` was sorted ascending
by the axis-`d` sort key, then both `indices[d][begin, pivot)` and `indices[d][pivot, end)`
are sorted ascending by the axis-`d` sort key. -/
theorem sort_indices_preserves_sorted {B K : Type} [LinearOrder K] (key : B → Nat → K)
    (bboxes : List B) (s : PartitionerBase) (N dimension begin_ end_ pivot : Nat)
    (hws : WellSized s N) (hact : ActiveRange s N begin_ end_)
    (hdim : dimension < s.Dimension)
    (hbp : begin_ ≤ pivot) (hpe : pivot ≤ end_) (heN : end_ ≤ N) :
    ∃ s', sort_indices s dimension begin_ end_ pivot = .ok s' ∧
      ∀ d, d < s.Dimension → SortedOnAxis key bboxes d (slice (s.axis d) begin_ end_) →
        SortedOnAxis key bboxes d (slice (s'.axis d) begin_ pivot) ∧
        SortedOnAxis key bboxes d (slice (s'.axis d) pivot end_) := by
  obtain ⟨s', hrun, _, _, h⟩ :=
    sort_indices_groups s N dimension begin_ end_ pivot hws hact hdim hbp hpe heN
  refine ⟨s', hrun, ?_⟩
  intro d hd hs
  obtain ⟨_, _, _, sl, sr, _, _⟩ := h d hd
  exact ⟨List.Pairwise.sublist sl hs, List.Pairwise.sublist sr hs⟩

/-- C9 (frame of a split). A valid call leaves the split axis unchanged at every
position, and on every other axis leaves every position `i < begin` and every position
`i >= end` unchanged (and keeps the length). -/
theorem sort_indices_frame (s : PartitionerBase) (N dimension begin_ end_ pivot : Nat)
    (hws : WellSized s N) (hact : ActiveRange s N begin_ end_)
    (hdim : dimension < s.Dimension)
    (hbp : begin_ ≤ pivot) (hpe : pivot ≤ end_) (heN : end_ ≤ N) :
    ∃ s', sort_indices s dimension begin_ end_ pivot = .ok s' ∧
      s'.axis dimension = s.axis dimension ∧
      ∀ d, d < s.Dimension → d ≠ dimension →
        (s'.axis d).length = (s.axis d).length ∧
        ∀ i, i < begin_ ∨ end_ ≤ i → (s'.axis d)[i]? = (s.axis d)[i]? := by
  obtain ⟨s', hrun, _, _, _, hax⟩ :=
    sort_indices_axes s N dimension begin_ end_ pivot hws hact hdim hbp hpe heN
  refine ⟨s', hrun, by simpa using hax dimension hdim, ?_⟩
  intro d hd hne
  obtain ⟨l1, l2, n1, n2, m1, m2⟩ := valid_axis_facts s N dimension begin_ end_ d hws hact hdim hd
  obtain ⟨hlen, _, _, hout⟩ := stable_split_parts (s.axis dimension) (s.axis d) begin_ end_ pivot
    hbp hpe (by omega) (by omega) n1 n2 m1 m2
  rw [hax d hd, if_neg hne]
  exact ⟨hlen, hout⟩

/-- Witness for C9: the split `[1,3)` at pivot 2 on axis 0 of a five-item state; axis 1
changes only inside `[1,3)`. -/
theorem sort_indices_frame_witness :
    (∃ s', sort_indices
        { m_indices := [[4, 1, 3, 0, 2], [2, 3, 1, 4, 0]], m_tmp := [0, 0, 0, 0, 0],
          m_tags := [0, 0, 0, 0, 0] } 0 1 3 2 = .ok s' ∧
      s'.axis 0 = [4, 1, 3, 0, 2] ∧
      ∀ d, d < 2 → d ≠ 0 →
        (s'.axis d).length = (PartitionerBase.axis
          { m_indices := [[4, 1, 3, 0, 2], [2, 3, 1, 4, 0]], m_tmp := [0, 0, 0, 0, 0],
            m_tags := [0, 0, 0, 0, 0] } d).length ∧
        ∀ i, i < 1 ∨ 3 ≤ i → (s'.axis d)[i]? = (PartitionerBase.axis
          { m_indices := [[4, 1, 3, 0, 2], [2, 3, 1, 4, 0]], m_tmp := [0, 0, 0, 0, 0],
            m_tags := [0, 0, 0, 0, 0] } d)[i]?) ∧
    sort_indices
        { m_indices := [[4, 1, 3, 0, 2], [2, 3, 1, 4, 0]], m_tmp := [0, 0, 0, 0, 0],
          m_tags := [0, 0, 0, 0, 0] } 0 1 3 2
      = .ok { m_indices := [[4, 1, 3, 0, 2], [2, 1, 3, 4, 0]], m_tmp := [0, 1, 3, 0, 0],
              m_tags := [0, 0, 0, 1, 0] } :=
  ⟨sort_indices_frame
      { m_indices := [[4, 1, 3, 0, 2], [2, 3, 1, 4, 0]], m_tmp := [0, 0, 0, 0, 0],
        m_tags := [0, 0, 0, 0, 0] } 5 0 1 3 2
      (by unfold WellSized; decide) (by unfold ActiveRange; decide)
      (by decide) (by decide) (by decide) (by decide),
    by rfl⟩

/-- Witness for C3: the scenario state; both axes are sorted by their keys before the
split of `[0,4)` on axis 0 at pivot 2. -/
theorem sort_indices_preserves_sorted_witness :
    (SortedOnAxis scenario_key scenario_boxes 0 (slice (scenario_state.axis 0) 0 4) ∧
      SortedOnAxis scenario_key scenario_boxes 1 (slice (scenario_state.axis 1) 0 4)) ∧
    ∃ s', sort_indices scenario_state 0 0 4 2 = .ok s' ∧
      ∀ d, d < scenario_state.Dimension →
        SortedOnAxis scenario_key scenario_boxes d (slice (scenario_state.axis d) 0 4) →
        SortedOnAxis scenario_key scenario_boxes d (slice (s'.axis d) 0 2) ∧
        SortedOnAxis scenario_key scenario_boxes d (slice (s'.axis d) 2 4) :=
  ⟨⟨sortedOnAxis_of_pairwise _ _ _ _ (by decide), sortedOnAxis_of_pairwise _ _ _ _ (by decide)⟩,
   sort_indices_preserves_sorted scenario_key scenario_boxes scenario_state 4 0 0 4 2
    (by unfold WellSized; decide) (by unfold ActiveRange; decide)
    (by decide) (by decide) (by decide) (by decide)⟩

/-- C8 (the two commit strategies agree). For vectors `indices` and `m_tmp` of the same
length `N` and `begin <= end <= N`, committing by swap and committing in place both
succeed and leave the same vector in `indices`; that vector is the old `indices` with
positions `[begin, end)` taken from `m_tmp`. (Only the scratch vector differs: the swap
leaves the old `indices` in it, the copy leaves it as it was.) -/
theorem commit_strategies_agree (indices m_tmp : List Nat) (N begin_ end_ : Nat)
    (hi : indices.length = N) (ht : m_tmp.length = N)
    (hbe : begin_ ≤ end_) (heN : end_ ≤ N) :
    ∃ r, commit_swap begin_ end_ indices m_tmp = .ok (r, indices) ∧
      commit_copy begin_ end_ indices m_tmp = .ok (r, m_tmp) ∧
      r = indices.take begin_ ++ slice m_tmp begin_ end_ ++ indices.drop end_ := by
  obtain ⟨r1, hs, hl1, hp1⟩ := commit_swap_ok indices m_tmp begin_ end_ hbe (by omega) (by omega)
  obtain ⟨r2, hc, hl2, hp2⟩ := commit_copy_ok indices m_tmp begin_ end_ hbe (by omega) (by omega)
  have h12 : r1 = r2 := by
    apply List.ext_getElem?
    intro j
    rw [hp1 j, hp2 j]
  subst h12
  refine ⟨r1, hs, hc, ?_⟩
  have h := eq_of_parts r1 indices (slice r1 begin_ end_) [] begin_ end_ end_ hbe (le_refl _)
    (fun j hj => by
      rw [hp1 j]
      have : ¬ (begin_ ≤ j ∧ j < end_) := by omega
      simp [this])
    rfl (slice_self _ _)
  rw [List.append_nil] at h
  rw [h]
  congr 2
  apply slice_congr
  intro j h1 h2
  rw [hp1 j]
  have : begin_ ≤ j ∧ j < end_ := by omega
  simp [this]

/-- Witness for C8: a range covering three of four positions. -/
theorem commit_strategies_agree_witness :
    ∃ r, commit_swap 1 4 [10, 11, 12, 13] [20, 21, 22, 23] = .ok (r, [10, 11, 12, 13]) ∧
      commit_copy 1 4 [10, 11, 12, 13] [20, 21, 22, 23] = .ok (r, [20, 21, 22, 23]) ∧
      r = [10, 11, 12, 13].take 1 ++ slice [20, 21, 22, 23] 1 4 ++ [10, 11, 12, 13].drop 4 :=
  commit_strategies_agree [10, 11, 12, 13] [20, 21, 22, 23] 4 1 4 (by decide) (by decide)
    (by decide) (by decide)

/-- C10 (degenerate split). For every state and every split axis, the call
`sort_indices(axis, p, p, p)` returns and leaves the state unchanged: all index vectors,
and also the scratch and tag vectors. -/
theorem sort_indices_degenerate (s : PartitionerBase) (dimension p : Nat)
    (hdim : dimension < s.Dimension) :
    sort_indices s dimension p p p = .ok s := by
  have hloop : forRange 0 s.Dimension (axis_body dimension p p p) s = .ok s := by
    obtain ⟨st, hrun, hst⟩ := forRange_rule 0 s.Dimension (axis_body dimension p p p) s
      (fun _ st => st = s) (Nat.zero_le _) rfl
      (by
        intro k st _ hk hst
        subst hst
        refine ⟨st, ?_, rfl⟩
        have hk2 : k < st.m_indices.length := hk
        by_cases hkd : k = dimension
        · simp [axis_body, hkd, pure, Except.pure]
        · simp [axis_body, hkd, readAt, List.getElem?_eq_getElem hk2, sort_axis,
            forRange_empty, commit_copy, copy_range, bind, Except.bind, pure, Except.pure,
            set_getElem_same _ _ hk2])
    rw [hrun, hst]
  simp [sort_indices, axis_eq s dimension hdim, readAt, tag_range, forRange_empty, hloop, bind,
    Except.bind]

/-- Witness for C10: `begin = pivot = end = 2` on the scenario state. -/
theorem sort_indices_degenerate_witness :
    sort_indices scenario_state 0 2 2 2 = .ok scenario_state :=
  sort_indices_degenerate scenario_state 0 2 (by decide)

/-! ## Contract of the initialization and of `compute_bbox` -/

/-- C6 (the initialization builds sorted permutations). For every conforming `std::sort`,
every box sequence of length `N >= 0`, every prior state and every axis `d`, after
`initialize(bboxes)` the vector `indices[d]` has length `N`, is a permutation of
`0..N-1` and is sorted ascending by the axis-`d` sort key; for `N = 0` every axis vector,
and so `get_item_ordering()`, is empty. -/
theorem initialize_sorted_permutations {B K : Type} [LinearOrder K]
    (stdsort : (Nat → Nat → Bool) → List Nat → List Nat) (hsort : StdSortSpec stdsort)
    (key : B → Nat → K) (s0 : PartitionerBase) (bboxes : List B) :
    (∀ d, d < s0.Dimension →
      ((initialize_ stdsort key s0 bboxes).axis d).length = bboxes.length ∧
      ((initialize_ stdsort key s0 bboxes).axis d).Perm (List.range bboxes.length) ∧
      SortedOnAxis key bboxes d ((initialize_ stdsort key s0 bboxes).axis d)) ∧
    (bboxes = [] →
      (∀ d, d < s0.Dimension → (initialize_ stdsort key s0 bboxes).axis d = []) ∧
      (0 < s0.Dimension → get_item_ordering (initialize_ stdsort key s0 bboxes) = .ok [])) := by
  obtain ⟨hD, _, _, h⟩ := initialize_state stdsort hsort key s0 bboxes
  have hlen : ∀ d, d < s0.Dimension →
      ((initialize_ stdsort key s0 bboxes).axis d).length = bboxes.length := by
    intro d hd
    rw [(h d hd).2.1.length_eq, List.length_range]
  refine ⟨fun d hd => ⟨hlen d hd, (h d hd).2.1, (h d hd).2.2⟩, ?_⟩
  intro hnil
  have hempty : ∀ d, d < s0.Dimension → (initialize_ stdsort key s0 bboxes).axis d = [] := by
    intro d hd
    apply List.eq_nil_of_length_eq_zero
    rw [hlen d hd, hnil]
    rfl
  refine ⟨hempty, ?_⟩
  intro h0
  have h1 := axis_eq (initialize_ stdsort key s0 bboxes) 0 (by rw [hD]; exact h0)
  simp [get_item_ordering, readAt, h1, hempty 0 h0]

/-- Witness for C6: boxes with axis-0 keys `[3,1,4,2]` give `indices[0] = [1,3,0,2]`. -/
theorem initialize_sorted_permutations_witness :
    ((∀ d, d < 2 →
      ((initialize_ insertion_sort scenario_key ⟨[[], []], [], []⟩ scenario_boxes).axis d).length
        = 4 ∧
      ((initialize_ insertion_sort scenario_key ⟨[[], []], [], []⟩ scenario_boxes).axis d).Perm
        (List.range 4) ∧
      SortedOnAxis scenario_key scenario_boxes d
        ((initialize_ insertion_sort scenario_key ⟨[[], []], [], []⟩ scenario_boxes).axis d)) ∧
    (scenario_boxes = [] →
      (∀ d, d < 2 →
        (initialize_ insertion_sort scenario_key ⟨[[], []], [], []⟩ scenario_boxes).axis d = []) ∧
      (0 < 2 → get_item_ordering
        (initialize_ insertion_sort scenario_key ⟨[[], []], [], []⟩ scenario_boxes) = .ok []))) ∧
    (initialize_ insertion_sort scenario_key ⟨[[], []], [], []⟩ scenario_boxes).axis 0
      = [1, 3, 0, 2] ∧
    initialize_ insertion_sort scenario_key ⟨[[], []], [], []⟩ scenario_boxes = scenario_state :=
  ⟨initialize_sorted_permutations insertion_sort insertion_sort_spec scenario_key
      ⟨[[], []], [], []⟩ scenario_boxes,
    by decide, by decide⟩

/-- C7 (`compute_bbox` is the union over the axis-0 range). For `begin <= end` within the
axis-0 vector, whose entries in `[begin, end)` are valid box indices, `compute_bbox`
returns the invalid box with the boxes `bboxes[indices_0[i]]`, `i = begin..end-1`,
inserted in turn: one box for each position of the range. When `begin == end` the result
is the invalid box. The result depends on the state only through the axis-0 vector. -/
theorem compute_bbox_union {B : Type} (invalidate : B) (insert : B → B → B)
    (s : PartitionerBase) (bboxes : List B) (begin_ end_ : Nat)
    (hD : 0 < s.Dimension) (hbe : begin_ ≤ end_) (he : end_ ≤ (s.axis 0).length)
    (hidx : ∀ x ∈ slice (s.axis 0) begin_ end_, x < bboxes.length) :
    compute_bbox invalidate insert s bboxes begin_ end_
      = .ok (((slice (s.axis 0) begin_ end_).filterMap (fun i => bboxes[i]?)).foldl
          insert invalidate) ∧
    ((slice (s.axis 0) begin_ end_).filterMap (fun i => bboxes[i]?)).length = end_ - begin_ ∧
    (begin_ = end_ → compute_bbox invalidate insert s bboxes begin_ end_ = .ok invalidate) ∧
    (∀ s2 : PartitionerBase, 0 < s2.Dimension → s2.axis 0 = s.axis 0 →
      compute_bbox invalidate insert s2 bboxes begin_ end_
        = compute_bbox invalidate insert s bboxes begin_ end_) := by
  have hread : readAt s.m_indices 0 = .ok (s.axis 0) := by
    simp [readAt, axis_eq s 0 hD]
  have hmain : compute_bbox invalidate insert s bboxes begin_ end_
      = .ok (((slice (s.axis 0) begin_ end_).filterMap (fun i => bboxes[i]?)).foldl
          insert invalidate) := by
    obtain ⟨r, hrun, hr⟩ := forRange_rule begin_ end_
      (fun i bbox => do
        let index ← readAt (s.axis 0) i
        let b ← readAt bboxes index
        pure (insert bbox b)) invalidate
      (fun i bbox => bbox = ((slice (s.axis 0) begin_ i).filterMap (fun i => bboxes[i]?)).foldl
          insert invalidate)
      hbe (by simp [slice_self])
      (by
        intro i bbox h1 h2 hinv
        have hi : i < (s.axis 0).length := by omega
        have hP := slice_succ (s.axis 0) begin_ i h1 hi
        have hmem : (s.axis 0)[i] ∈ slice (s.axis 0) begin_ end_ :=
          (slice_mono_sublist _ begin_ (i + 1) end_ (by omega) (by omega)).subset
            (by rw [hP]; simp)
        have hx : (s.axis 0)[i] < bboxes.length := hidx _ hmem
        refine ⟨insert bbox bboxes[(s.axis 0)[i]], ?_, ?_⟩
        · simp [readAt_ok _ i hi, readAt_ok bboxes _ hx, bind, Except.bind, pure, Except.pure]
        · show insert bbox bboxes[(s.axis 0)[i]] = _
          rw [hP, List.filterMap_append, List.foldl_append, ← hinv]
          simp [List.getElem?_eq_getElem hx])
    simp only [compute_bbox, hread]
    exact hrun.trans (congrArg Except.ok hr)
  refine ⟨hmain, ?_, ?_, ?_⟩
  · have hall : ∀ l : List Nat, (∀ x ∈ l, x < bboxes.length) →
        (l.filterMap (fun i => bboxes[i]?)).length = l.length := by
      intro l
      induction l with
      | nil => intro _; rfl
      | cons a l ih =>
        intro hl
        have ha : a < bboxes.length := hl a (List.mem_cons_self _ _)
        rw [List.filterMap_cons, List.getElem?_eq_getElem ha]
        simp [ih (fun x hx => hl x (List.mem_cons_of_mem _ hx))]
    rw [hall _ hidx, slice_length _ _ _ he]
  · intro hEq
    rw [hmain, hEq, slice_self]
    rfl
  · intro s2 hD2 hax
    have hread2 : readAt s2.m_indices 0 = .ok (s.axis 0) := by
      simp [readAt, axis_eq s2 0 hD2, hax]
    simp only [compute_bbox, hread, hread2]

/-- Witness for C7: boxes are intervals `(min, max)`, the invalid box is `(100, -100)`,
insertion takes the minimum of the lower and the maximum of the upper bounds; the range
`[1,3)` of the axis-0 order `[1,3,0,2]` lists the items 3 and 0. -/
theorem compute_bbox_union_witness :
    compute_bbox ((100, -100) : Int × Int) (fun a b => (min a.1 b.1, max a.2 b.2))
        scenario_state [(3, 5), (1, 2), (4, 9), (2, 3)] 1 3
      = .ok ((2, 5) : Int × Int) :=
  (compute_bbox_union ((100, -100) : Int × Int) (fun a b => (min a.1 b.1, max a.2 b.2))
    scenario_state [(3, 5), (1, 2), (4, 9), (2, 3)] 1 3
    (by decide) (by decide) (by decide) (by decide)).1.trans (congrArg Except.ok (by decide))

/-! ## Invariants of a build -/

/-- The bisected scenario is reachable: three splits after the initialization. -/
theorem bisected_reachable :
    Reachable insertion_sort scenario_key ⟨[[], []], [], []⟩ scenario_boxes bisected_config := by
  have h0 : Reachable insertion_sort scenario_key ⟨[[], []], [], []⟩ scenario_boxes _ :=
    Reachable.init
  have h1 := Reachable.split _ [] [] 0 4 0 2
    { m_indices := [[1, 3, 0, 2], [1, 3, 0, 2]], m_tmp := [0, 1, 2, 3], m_tags := [1, 0, 1, 0] }
    h0 rfl (by decide) (by decide) (by decide) (by rfl)
  have h2 := Reachable.split _ [] [(2, 4)] 0 2 1 1
    { m_indices := [[1, 3, 0, 2], [1, 3, 0, 2]], m_tmp := [1, 3, 2, 3], m_tags := [1, 0, 1, 1] }
    h1 rfl (by decide) (by decide) (by decide) (by rfl)
  exact Reachable.split _ [(0, 1), (1, 2)] [] 2 4 1 3
    { m_indices := [[1, 3, 0, 2], [1, 3, 0, 2]], m_tmp := [1, 3, 0, 2], m_tags := [0, 0, 1, 1] }
    h2 rfl (by decide) (by decide) (by decide) (by rfl)

/-- C4 (reachable-state invariant). In every configuration reachable from
`initialize(bboxes)` by splits of active ranges, every active range holds the same
indices on all axes (any two axes are permutations of each other there) and is sorted
ascending on every axis `d` by the axis-`d` sort key. Moreover every further split of an
active range `[b, e)`, on any axis and at any pivot `b <= pivot <= e`, returns. -/
theorem reachable_ranges_invariant {B K : Type} [LinearOrder K]
    (stdsort : (Nat → Nat → Bool) → List Nat → List Nat) (hsort : StdSortSpec stdsort)
    (key : B → Nat → K) (s0 : PartitionerBase) (bboxes : List B) (c : Config)
    (hreach : Reachable stdsort key s0 bboxes c) :
    (∀ r ∈ c.ranges,
      (∀ d1, d1 < c.state.Dimension → ∀ d2, d2 < c.state.Dimension →
        (slice (c.state.axis d1) r.1 r.2).Perm (slice (c.state.axis d2) r.1 r.2)) ∧
      (∀ d, d < c.state.Dimension →
        SortedOnAxis key bboxes d (slice (c.state.axis d) r.1 r.2))) ∧
    (∀ r ∈ c.ranges, ∀ dimension, dimension < c.state.Dimension →
      ∀ pivot, r.1 ≤ pivot → pivot ≤ r.2 →
        ∃ s', sort_indices c.state dimension r.1 r.2 pivot = .ok s') := by
  obtain ⟨hws, _, _, hr⟩ := reachable_invariant stdsort hsort key s0 bboxes c hreach
  constructor
  · intro r hrm
    obtain ⟨_, _, hact, hsorted⟩ := hr r hrm
    refine ⟨?_, hsorted⟩
    intro d1 h1 d2 h2
    have ha := (activeRange_iff _ _ _ _).mp hact
    exact (List.perm_ext_iff_of_nodup (ha d1 h1).1 (ha d2 h2).1).mpr
      (fun x => ⟨(ha d1 h1).2.2 d2 h2 x, (ha d2 h2).2.2 d1 h1 x⟩)
  · intro r hrm dimension hdim pivot hbp hpe
    obtain ⟨_, heN, hact, _⟩ := hr r hrm
    obtain ⟨s', hrun, _⟩ :=
      sort_indices_groups c.state bboxes.length dimension r.1 r.2 pivot hws hact hdim hbp hpe heN
    exact ⟨s', hrun⟩

/-- Witness for C4: the scenario bisected down to four ranges of size one. -/
theorem reachable_ranges_invariant_witness :
    (∀ r ∈ bisected_config.ranges,
      (∀ d1, d1 < bisected_config.state.Dimension → ∀ d2, d2 < bisected_config.state.Dimension →
        (slice (bisected_config.state.axis d1) r.1 r.2).Perm
          (slice (bisected_config.state.axis d2) r.1 r.2)) ∧
      (∀ d, d < bisected_config.state.Dimension →
        SortedOnAxis scenario_key scenario_boxes d
          (slice (bisected_config.state.axis d) r.1 r.2))) ∧
    (∀ r ∈ bisected_config.ranges, ∀ dimension, dimension < bisected_config.state.Dimension →
      ∀ pivot, r.1 ≤ pivot → pivot ≤ r.2 →
        ∃ s', sort_indices bisected_config.state dimension r.1 r.2 pivot = .ok s') :=
  reachable_ranges_invariant insertion_sort insertion_sort_spec scenario_key ⟨[[], []], [], []⟩
    scenario_boxes bisected_config bisected_reachable

/-- C5 (no duplication, no loss). In every configuration reachable from
`initialize(bboxes)` with `N` boxes by valid splits, every axis vector has length `N` and
contains each index `0..N-1` exactly once; hence for any pivot the parts `[0, pivot)` and
`[pivot, N)` together are a rearrangement of `0..N-1`. `get_item_ordering()` is the
axis-0 vector. -/
theorem reachable_no_loss {B K : Type} [LinearOrder K]
    (stdsort : (Nat → Nat → Bool) → List Nat → List Nat) (hsort : StdSortSpec stdsort)
    (key : B → Nat → K) (s0 : PartitionerBase) (bboxes : List B) (c : Config)
    (hreach : Reachable stdsort key s0 bboxes c) :
    (∀ d, d < c.state.Dimension →
      (c.state.axis d).length = bboxes.length ∧
      (c.state.axis d).Perm (List.range bboxes.length) ∧
      (∀ i, i < bboxes.length → (c.state.axis d).count i = 1) ∧
      ∀ pivot, ((c.state.axis d).take pivot ++ (c.state.axis d).drop pivot).Perm
        (List.range bboxes.length)) ∧
    (0 < c.state.Dimension → get_item_ordering c.state = .ok (c.state.axis 0)) := by
  obtain ⟨hws, hperm, _, _⟩ := reachable_invariant stdsort hsort key s0 bboxes c hreach
  constructor
  · intro d hd
    have hp := hperm _ (axis_mem c.state d hd)
    refine ⟨hws.1 _ (axis_mem c.state d hd), hp, ?_, ?_⟩
    · intro i hi
      rw [hp.count_eq]
      exact List.count_eq_one_of_mem (List.nodup_range _) (List.mem_range.mpr hi)
    · intro pivot
      rw [List.take_append_drop]
      exact hp
  · intro h0
    simp [get_item_ordering, readAt, axis_eq c.state 0 h0]

/-- Witness for C5: the scenario bisected down to four ranges of size one. -/
theorem reachable_no_loss_witness :
    (∀ d, d < bisected_config.state.Dimension →
      (bisected_config.state.axis d).length = scenario_boxes.length ∧
      (bisected_config.state.axis d).Perm (List.range scenario_boxes.length) ∧
      (∀ i, i < scenario_boxes.length → (bisected_config.state.axis d).count i = 1) ∧
      ∀ pivot, ((bisected_config.state.axis d).take pivot
          ++ (bisected_config.state.axis d).drop pivot).Perm
        (List.range scenario_boxes.length)) ∧
    (0 < bisected_config.state.Dimension →
      get_item_ordering bisected_config.state = .ok (bisected_config.state.axis 0)) :=
  reachable_no_loss insertion_sort insertion_sort_spec scenario_key ⟨[[], []], [], []⟩
    scenario_boxes bisected_config bisected_reachable

/-! ## Loops that may fault -/

/-- Partial-correctness rule for `for` loops: if the loop returns, an invariant carried
by every returning iteration holds on exit. -/
theorem forRange_partial {σ : Type} (body : Nat → σ → Except Fault σ) (Inv : Nat → σ → Prop)
    (hi : Nat) :
    ∀ (n lo : Nat) (init st' : σ), lo + n = hi → Inv lo init →
      (∀ i st st1, lo ≤ i → i < hi → Inv i st → body i st = .ok st1 → Inv (i + 1) st1) →
      forRange lo hi body init = .ok st' → Inv hi st' := by
  intro n
  induction n with
  | zero =>
    intro lo init st' hlo h0 _ hrun
    have : lo = hi := by omega
    subst this
    rw [forRange_empty _ _ _ _ (le_refl _)] at hrun
    rw [← Except.ok.inj hrun]
    exact h0
  | succ n ih =>
    intro lo init st' hlo h0 hstep hrun
    rw [forRange_step _ _ _ _ (by omega)] at hrun
    cases hb : body lo init with
    | error f =>
      rw [hb] at hrun
      exact Except.noConfusion hrun
    | ok st1 =>
      rw [hb] at hrun
      exact ih (lo + 1) st1 st' (by omega) (hstep lo init st1 (le_refl _) (by omega) h0 hb)
        (fun i st st2 h1 h2 h3 h4 => hstep i st st2 (by omega) h2 h3 h4) hrun

theorem forRange_partial_rule {σ : Type} (lo hi : Nat) (body : Nat → σ → Except Fault σ)
    (init st' : σ) (Inv : Nat → σ → Prop) (hle : lo ≤ hi) (h0 : Inv lo init)
    (hstep : ∀ i st st1, lo ≤ i → i < hi → Inv i st → body i st = .ok st1 → Inv (i + 1) st1)
    (hrun : forRange lo hi body init = .ok st') : Inv hi st' :=
  forRange_partial body Inv hi (hi - lo) lo init st' (by omega) h0 hstep hrun

/-- A property that every returning iteration preserves holds after the loop, if the
loop returns. -/
theorem forRange_preserves {σ : Type} (lo hi : Nat) (body : Nat → σ → Except Fault σ)
    (init st' : σ) (P : σ → Prop) (h0 : P init)
    (hstep : ∀ i st st1, P st → body i st = .ok st1 → P st1)
    (hrun : forRange lo hi body init = .ok st') : P st' := by
  by_cases hle : lo ≤ hi
  · exact forRange_partial_rule lo hi body init st' (fun _ st => P st) hle h0
      (fun i st st1 _ _ h3 h4 => hstep i st st1 h3 h4) hrun
  · rw [forRange_empty _ _ _ _ (by omega)] at hrun
    rw [← Except.ok.inj hrun]
    exact h0

/-- Rule for loops whose iterations either return or fault in a way described by `Q`:
the loop either returns with the invariant or faults in a way described by `Q`. -/
theorem forRange_fault {σ : Type} (body : Nat → σ → Except Fault σ) (Inv : Nat → σ → Prop)
    (Q : Fault → Prop) (hi : Nat) :
    ∀ (n lo : Nat) (init : σ), lo + n = hi → Inv lo init →
      (∀ i st, lo ≤ i → i < hi → Inv i st →
        (∃ st1, body i st = .ok st1 ∧ Inv (i + 1) st1) ∨ (∃ f, body i st = .error f ∧ Q f)) →
      (∃ st', forRange lo hi body init = .ok st' ∧ Inv hi st') ∨
        (∃ f, forRange lo hi body init = .error f ∧ Q f) := by
  intro n
  induction n with
  | zero =>
    intro lo init hlo h0 _
    have : lo = hi := by omega
    subst this
    exact Or.inl ⟨init, forRange_empty _ _ _ _ (le_refl _), h0⟩
  | succ n ih =>
    intro lo init hlo h0 hstep
    rw [forRange_step _ _ _ _ (by omega)]
    rcases hstep lo init (le_refl _) (by omega) h0 with ⟨st1, hb, hinv1⟩ | ⟨f, hb, hq⟩
    · rw [hb]
      exact ih (lo + 1) st1 (by omega) hinv1 (fun i st h1 h2 h3 => hstep i st (by omega) h2 h3)
    · rw [hb]
      exact Or.inr ⟨f, rfl, hq⟩

/-! ## Safety of valid calls -/

/-- C11 (failure only via precondition violation). On a valid call (all vectors of
length `N`, `[begin, end)` active, axis below `Dimension`, `begin <= pivot <= end <= N`)
`sort_indices` returns: no assertion fails and no access is out of bounds. For each axis
`d != s` the number of elements of `indices[d][begin, end)` that carry the tag `Left` is
exactly `pivot - begin`. -/
theorem sort_indices_no_fault (s : PartitionerBase) (N dimension begin_ end_ pivot : Nat)
    (hws : WellSized s N) (hact : ActiveRange s N begin_ end_)
    (hdim : dimension < s.Dimension)
    (hbp : begin_ ≤ pivot) (hpe : pivot ≤ end_) (heN : end_ ≤ N) :
    ∃ s', sort_indices s dimension begin_ end_ pivot = .ok s' ∧
      (∀ f, sort_indices s dimension begin_ end_ pivot ≠ .error f) ∧
      ∀ d, d < s.Dimension → d ≠ dimension →
        ((slice (s.axis d) begin_ end_).filter
          (fun x => decide (s'.m_tags[x]? = some Left))).length = pivot - begin_ := by
  obtain ⟨s', hrun, _, _, _, _, hL, hR, _⟩ := sort_indices_refines_tags s N dimension begin_ end_
    pivot (s.axis dimension) (axis_eq s dimension hdim) hws hact hbp hpe heN
  refine ⟨s', hrun, ?_, ?_⟩
  · intro f hf
    rw [hrun] at hf
    exact Except.noConfusion hf
  · intro d hd _
    obtain ⟨l1, l2, n1, n2, m1, m2⟩ :=
      valid_axis_facts s N dimension begin_ end_ d hws hact hdim hd
    rw [← left_count (s.axis dimension) (s.axis d) begin_ end_ pivot hbp hpe (by omega) n1 n2
      m1 m2]
    congr 1
    apply List.filter_congr
    intro x hx
    rcases (mem_split_iff _ begin_ end_ pivot hbp hpe x).mp (m1 x hx) with h | h
    · simp [hL x h, h]
    · have hn : x ∉ slice (s.axis dimension) begin_ pivot :=
        fun h1 => split_disjoint _ begin_ end_ pivot hbp hpe n1 x h1 h
      simp [hR x h, hn, Left, Right]

/-- Witness for C11: the scenario state, split of `[0,4)` on axis 0 at pivot 2. -/
theorem sort_indices_no_fault_witness :
    ∃ s', sort_indices scenario_state 0 0 4 2 = .ok s' ∧
      (∀ f, sort_indices scenario_state 0 0 4 2 ≠ .error f) ∧
      ∀ d, d < scenario_state.Dimension → d ≠ 0 →
        ((slice (scenario_state.axis d) 0 4).filter
          (fun x => decide (s'.m_tags[x]? = some Left))).length = 2 - 0 :=
  sort_indices_no_fault scenario_state 4 0 0 4 2
    (by unfold WellSized; decide) (by unfold ActiveRange; decide)
    (by decide) (by decide) (by decide) (by decide)

/-! ## Re-initialization -/

theorem initialize_indices_eq {B K : Type} [LinearOrder K]
    (stdsort : (Nat → Nat → Bool) → List Nat → List Nat) (key : B → Nat → K)
    (s : PartitionerBase) (bboxes : List B) :
    (initialize_ stdsort key s bboxes).m_indices
      = (List.range s.Dimension).map
          (fun d => stdsort (BboxSortPredicate key bboxes d) (List.range bboxes.length)) := by
  obtain ⟨hl, hp⟩ := axes_fold
    (fun d v => stdsort (BboxSortPredicate key bboxes d) (identity_ordering v bboxes.length))
    s.m_indices s.m_indices.length (le_refl _)
  apply List.ext_getElem?
  intro d
  simp only [initialize_, PartitionerBase.Dimension]
  rw [hp d]
  by_cases hd : d < s.m_indices.length
  · simp [hd, identity_ordering_eq, List.getElem?_range hd]
  · have h1 : s.m_indices[d]? = none := List.getElem?_eq_none (by omega)
    have h2 : (List.range s.m_indices.length)[d]? = none :=
      List.getElem?_eq_none (by simp; omega)
    simp [hd, h1, h2]

theorem fresh_dimension (D : Nat) : (fresh D).Dimension = D := by
  simp [fresh, PartitionerBase.Dimension]

/-- C13 (the initialization is idempotent and resets history). Whatever the prior state
`s` of the partitioner, `initialize(bboxes)` leaves the same index vectors as
`initialize(bboxes)` on a fresh partitioner with the same number of axes; in particular
a second `initialize(bboxes)` leaves the index vectors of the first. -/
theorem initialize_resets {B K : Type} [LinearOrder K]
    (stdsort : (Nat → Nat → Bool) → List Nat → List Nat) (key : B → Nat → K)
    (s : PartitionerBase) (bboxes : List B) :
    (initialize_ stdsort key s bboxes).m_indices
      = (initialize_ stdsort key (fresh s.Dimension) bboxes).m_indices ∧
    (initialize_ stdsort key (initialize_ stdsort key s bboxes) bboxes).m_indices
      = (initialize_ stdsort key s bboxes).m_indices := by
  have hD : (initialize_ stdsort key s bboxes).Dimension = s.Dimension := by
    simp only [PartitionerBase.Dimension, initialize_indices_eq, List.length_map,
      List.length_range]
  constructor
  · rw [initialize_indices_eq, initialize_indices_eq, fresh_dimension]
  · rw [initialize_indices_eq stdsort key (initialize_ stdsort key s bboxes), hD,
      ← initialize_indices_eq]

/-! ## Further properties of a split -/

/-- C15 (strategy selection threshold). Once the bucketing walk has returned with both
final assertions satisfied, the commit goes through the swap branch exactly when
`2 * (end - begin) > N`, where `N` is the length of the axis vector, and through the
in-place copy branch otherwise: the test `end - begin > N / 2` of the code, with
truncating division, is equivalent to `2 * (end - begin) > N` for every `N`. -/
theorem commit_threshold (m_tags indices m_tmp : List Nat) (begin_ end_ pivot : Nat) (w : Walk)
    (hwalk : forRange begin_ end_ (walk_body m_tags indices end_ pivot)
      { left := begin_, right := pivot, tmp := m_tmp } = .ok w)
    (hl : w.left = pivot) (hr : w.right = end_) :
    sort_axis m_tags begin_ end_ pivot indices m_tmp
      = (if 2 * (end_ - begin_) > indices.length
          then commit_swap begin_ end_ indices w.tmp
          else commit_copy begin_ end_ indices w.tmp) ∧
    (end_ - begin_ > indices.length / 2 ↔ 2 * (end_ - begin_) > indices.length) := by
  have harith : end_ - begin_ > indices.length / 2 ↔ 2 * (end_ - begin_) > indices.length := by
    omega
  refine ⟨?_, harith⟩
  by_cases h : 2 * (end_ - begin_) > indices.length
  · have h2 := harith.mpr h
    simp [sort_axis, hwalk, hl, hr, h, h2, bind, Except.bind, pure, Except.pure]
  · have h2 : ¬ end_ - begin_ > indices.length / 2 := fun h3 => h (harith.mp h3)
    simp only [gt_iff_lt] at h h2
    simp [sort_axis, hwalk, hl, hr, h, h2, bind, Except.bind, pure, Except.pure]

/-- Witness for C15: `N = 5` (odd); a range of three positions is committed by swap. -/
theorem commit_threshold_witness :
    sort_axis [0, 0, 1, 1, 0] 1 4 2 [4, 1, 2, 3, 0] [9, 9, 9, 9, 9]
      = (if 2 * (4 - 1) > [4, 1, 2, 3, 0].length
          then commit_swap 1 4 [4, 1, 2, 3, 0] [9, 1, 2, 3, 9]
          else commit_copy 1 4 [4, 1, 2, 3, 0] [9, 1, 2, 3, 9]) ∧
    (4 - 1 > [4, 1, 2, 3, 0].length / 2 ↔ 2 * (4 - 1) > [4, 1, 2, 3, 0].length) :=
  commit_threshold [0, 0, 1, 1, 0] [4, 1, 2, 3, 0] [9, 9, 9, 9, 9] 1 4 2
    { left := 2, right := 4, tmp := [9, 1, 2, 3, 9] } (by rfl) (by rfl) (by rfl)

theorem stable_split_pivot_begin (split v : List Nat) (b e : Nat) (hbe : b ≤ e)
    (h1 : ∀ x ∈ slice v b e, x ∈ slice split b e) : stable_split split v b e b = v := by
  have hv := take_slice_drop v b e hbe
  conv => rhs; rw [← hv]
  unfold stable_split
  have hr : (slice v b e).filter (fun x => decide (x ∈ slice split b e)) = slice v b e := by
    rw [List.filter_eq_self]
    intro x hx
    simpa using h1 x hx
  simp [slice_self, hr]

theorem stable_split_pivot_end (split v : List Nat) (b e : Nat) (hbe : b ≤ e)
    (h1 : ∀ x ∈ slice v b e, x ∈ slice split b e) : stable_split split v b e e = v := by
  have hv := take_slice_drop v b e hbe
  conv => rhs; rw [← hv]
  unfold stable_split
  have hr : (slice v b e).filter (fun x => decide (x ∈ slice split b e)) = slice v b e := by
    rw [List.filter_eq_self]
    intro x hx
    simpa using h1 x hx
  simp [slice_self, hr]

theorem one_sided_indices (s s' : PartitionerBase) (N dimension b e pivot : Nat)
    (split : List Nat) (hsplit : s.m_indices[dimension]? = some split)
    (hact : ActiveRange s N b e)
    (hmap : ∀ d, s'.m_indices[d]? = (s.m_indices[d]?).map
        (fun v => if d = dimension then v else stable_split split v b e pivot))
    (hfix : ∀ v, (∀ x ∈ slice v b e, x ∈ slice split b e) → stable_split split v b e pivot = v) :
    s'.m_indices = s.m_indices := by
  have hsm : split ∈ s.m_indices := mem_of_getElem?_eq _ _ _ hsplit
  apply List.ext_getElem?
  intro d
  rw [hmap d]
  cases hv : s.m_indices[d]? with
  | none => rfl
  | some v =>
    have hvm : v ∈ s.m_indices := mem_of_getElem?_eq _ _ _ hv
    by_cases hd : d = dimension
    · simp [hd]
    · simp [hd, hfix v (hact.2.2 v hvm split hsm)]

/-- C18 (a one-sided split changes nothing). On a state whose vectors all have length `N`
and whose range `[begin, end)` is active, `sort_indices` with `pivot = begin` (everything
on the right) and `sort_indices` with `pivot = end` (everything on the left) both return
and leave all index vectors unchanged. -/
theorem sort_indices_one_sided (s : PartitionerBase) (N dimension begin_ end_ : Nat)
    (hws : WellSized s N) (hact : ActiveRange s N begin_ end_)
    (hdim : dimension < s.Dimension) (hbe : begin_ ≤ end_) (heN : end_ ≤ N) :
    (∃ s', sort_indices s dimension begin_ end_ begin_ = .ok s' ∧ s'.m_indices = s.m_indices) ∧
    (∃ s', sort_indices s dimension begin_ end_ end_ = .ok s' ∧ s'.m_indices = s.m_indices) := by
  have hsplit := axis_eq s dimension hdim
  constructor
  · obtain ⟨s', hrun, _, _, _, hmap⟩ := sort_indices_refines s N dimension begin_ end_ begin_
      (s.axis dimension) hsplit hws hact (le_refl _) hbe heN
    exact ⟨s', hrun, one_sided_indices s s' N dimension begin_ end_ begin_ _ hsplit hact hmap
      (fun v hv => stable_split_pivot_begin _ v begin_ end_ hbe hv)⟩
  · obtain ⟨s', hrun, _, _, _, hmap⟩ := sort_indices_refines s N dimension begin_ end_ end_
      (s.axis dimension) hsplit hws hact hbe (le_refl _) heN
    exact ⟨s', hrun, one_sided_indices s s' N dimension begin_ end_ end_ _ hsplit hact hmap
      (fun v hv => stable_split_pivot_end _ v begin_ end_ hbe hv)⟩

/-- Witness for C18: the range `[1,3)` of a five-item state, split on axis 0 with
`pivot = 1` and with `pivot = 3`. -/
theorem sort_indices_one_sided_witness :
    (∃ s', sort_indices
        { m_indices := [[4, 1, 3, 0, 2], [2, 3, 1, 4, 0]], m_tmp := [0, 0, 0, 0, 0],
          m_tags := [0, 0, 0, 0, 0] } 0 1 3 1 = .ok s' ∧
      s'.m_indices = [[4, 1, 3, 0, 2], [2, 3, 1, 4, 0]]) ∧
    (∃ s', sort_indices
        { m_indices := [[4, 1, 3, 0, 2], [2, 3, 1, 4, 0]], m_tmp := [0, 0, 0, 0, 0],
          m_tags := [0, 0, 0, 0, 0] } 0 1 3 3 = .ok s' ∧
      s'.m_indices = [[4, 1, 3, 0, 2], [2, 3, 1, 4, 0]]) :=
  sort_indices_one_sided
    { m_indices := [[4, 1, 3, 0, 2], [2, 3, 1, 4, 0]], m_tmp := [0, 0, 0, 0, 0],
      m_tags := [0, 0, 0, 0, 0] } 5 0 1 3
    (by unfold WellSized; decide) (by unfold ActiveRange; decide)
    (by decide) (by decide) (by decide)

/-- C16 (stale scratch state never leaks). Two states with the same index vectors, whose
tag and scratch vectors have length `N` but arbitrary contents, give the same index
vectors after the same valid call of `sort_indices`. -/
theorem sort_indices_ignores_scratch (s1 s2 : PartitionerBase)
    (N dimension begin_ end_ pivot : Nat) (hsame : s1.m_indices = s2.m_indices)
    (hws1 : WellSized s1 N) (hws2 : WellSized s2 N) (hact : ActiveRange s1 N begin_ end_)
    (hdim : dimension < s1.Dimension)
    (hbp : begin_ ≤ pivot) (hpe : pivot ≤ end_) (heN : end_ ≤ N) :
    ∃ s1' s2', sort_indices s1 dimension begin_ end_ pivot = .ok s1' ∧
      sort_indices s2 dimension begin_ end_ pivot = .ok s2' ∧
      s1'.m_indices = s2'.m_indices := by
  have hact2 : ActiveRange s2 N begin_ end_ := by
    unfold ActiveRange at hact ⊢
    rw [← hsame]
    exact hact
  have hsplit1 := axis_eq s1 dimension hdim
  have hsplit2 : s2.m_indices[dimension]? = some (s1.axis dimension) := by
    rw [← hsame]
    exact hsplit1
  obtain ⟨s1', hrun1, _, _, hlen1, hmap1⟩ := sort_indices_refines s1 N dimension begin_ end_
    pivot _ hsplit1 hws1 hact hbp hpe heN
  obtain ⟨s2', hrun2, _, _, hlen2, hmap2⟩ := sort_indices_refines s2 N dimension begin_ end_
    pivot _ hsplit2 hws2 hact2 hbp hpe heN
  refine ⟨s1', s2', hrun1, hrun2, ?_⟩
  apply List.ext_getElem?
  intro d
  rw [hmap1 d, hmap2 d, hsame]

/-- Witness for C16: the scenario with two different contents of the scratch and tag
vectors; axis 1 becomes `[1,3,0,2]` in both runs. -/
theorem sort_indices_ignores_scratch_witness :
    (∃ s1' s2', sort_indices scenario_state 0 0 4 2 = .ok s1' ∧
      sort_indices
        { m_indices := [[1, 3, 0, 2], [0, 1, 2, 3]], m_tmp := [7, 7, 5, 5], m_tags := [1, 1, 0, 9] }
        0 0 4 2 = .ok s2' ∧
      s1'.m_indices = s2'.m_indices) ∧
    sort_indices
        { m_indices := [[1, 3, 0, 2], [0, 1, 2, 3]], m_tmp := [7, 7, 5, 5], m_tags := [1, 1, 0, 9] }
        0 0 4 2
      = .ok { m_indices := [[1, 3, 0, 2], [1, 3, 0, 2]], m_tmp := [0, 1, 2, 3],
              m_tags := [1, 0, 1, 0] } :=
  ⟨sort_indices_ignores_scratch scenario_state
      { m_indices := [[1, 3, 0, 2], [0, 1, 2, 3]], m_tmp := [7, 7, 5, 5], m_tags := [1, 1, 0, 9] }
      4 0 0 4 2 (by rfl) (by unfold WellSized; decide) (by unfold WellSized; decide)
      (by unfold ActiveRange; decide) (by decide) (by decide) (by decide) (by decide),
    by rfl⟩

/-! ## What a returning call implies -/

theorem bind_eq_ok {α β : Type} (x : Except Fault α) (f : α → Except Fault β) (b : β) :
    (x >>= f) = .ok b ↔ ∃ a, x = .ok a ∧ f a = .ok b := by
  cases x with
  | error e => simp [bind, Except.bind]
  | ok a => simp [bind, Except.bind]

theorem writeAt_eq_ok {α : Type} (v v' : List α) (i : Nat) (x : α)
    (h : writeAt v i x = .ok v') : i < v.length ∧ v' = v.set i x := by
  unfold writeAt at h
  by_cases hi : i < v.length
  · rw [if_pos hi] at h
    exact ⟨hi, (Except.ok.inj h).symm⟩
  · rw [if_neg hi] at h
    exact Except.noConfusion h

theorem tag_range_length (split tags tags' : List Nat) (tag lo hi : Nat)
    (h : tag_range split tag lo hi tags = .ok tags') : tags'.length = tags.length := by
  refine forRange_preserves lo hi _ tags tags' (fun t => t.length = tags.length) rfl ?_ h
  intro i t t1 ht hb
  obtain ⟨index, _, h2⟩ := (bind_eq_ok _ _ _).mp hb
  rw [(writeAt_eq_ok _ _ _ _ h2).2, List.length_set]
  exact ht

theorem copy_range_length (src dst dst' : List Nat) (lo hi : Nat)
    (h : copy_range src lo hi dst = .ok dst') : dst'.length = dst.length := by
  refine forRange_preserves lo hi _ dst dst' (fun t => t.length = dst.length) rfl ?_ h
  intro i t t1 ht hb
  obtain ⟨x, _, h2⟩ := (bind_eq_ok _ _ _).mp hb
  rw [(writeAt_eq_ok _ _ _ _ h2).2, List.length_set]
  exact ht

/-- What one returning iteration of the bucketing walk does to the cursors and to the
length of the scratch vector. -/
theorem walk_body_eq_ok (m_tags indices : List Nat) (end_ pivot i : Nat) (w w1 : Walk)
    (h : walk_body m_tags indices end_ pivot i w = .ok w1) :
    w1.tmp.length = w.tmp.length ∧
    ((w.left < pivot ∧ w1.left = w.left + 1 ∧ w1.right = w.right) ∨
      (w.right < end_ ∧ w1.left = w.left ∧ w1.right = w.right + 1)) := by
  unfold walk_body at h
  obtain ⟨index, _, h⟩ := (bind_eq_ok _ _ _).mp h
  obtain ⟨tag, _, h⟩ := (bind_eq_ok _ _ _).mp h
  by_cases ht : tag = Left
  · rw [if_pos ht] at h
    by_cases hl : w.left < pivot
    · rw [if_pos hl] at h
      obtain ⟨tmp, h1, h2⟩ := (bind_eq_ok _ _ _).mp h
      have h3 := Except.ok.inj h2
      rw [← h3, (writeAt_eq_ok _ _ _ _ h1).2]
      exact ⟨List.length_set _ _ _, Or.inl ⟨hl, rfl, rfl⟩⟩
    · rw [if_neg hl] at h
      exact Except.noConfusion h
  · rw [if_neg ht] at h
    by_cases hr : w.right < end_
    · rw [if_pos hr] at h
      obtain ⟨tmp, h1, h2⟩ := (bind_eq_ok _ _ _).mp h
      have h3 := Except.ok.inj h2
      rw [← h3, (writeAt_eq_ok _ _ _ _ h1).2]
      exact ⟨List.length_set _ _ _, Or.inr ⟨hr, rfl, rfl⟩⟩
    · rw [if_neg hr] at h
      exact Except.noConfusion h

/-- A returning bucketing walk keeps the length of the scratch vector and only moves the
cursors forward. -/
theorem walk_eq_ok (m_tags indices tmp : List Nat) (b e pivot : Nat) (w : Walk)
    (h : forRange b e (walk_body m_tags indices e pivot) { left := b, right := pivot, tmp := tmp }
      = .ok w) :
    w.tmp.length = tmp.length ∧ b ≤ w.left ∧ pivot ≤ w.right := by
  refine forRange_preserves b e _ _ w
    (fun w => w.tmp.length = tmp.length ∧ b ≤ w.left ∧ pivot ≤ w.right) ⟨rfl, le_refl _, le_refl _⟩
    ?_ h
  intro i st st1 ⟨h1, h2, h3⟩ hb
  obtain ⟨hl, hc⟩ := walk_body_eq_ok _ _ _ _ _ _ _ hb
  refine ⟨by omega, ?_, ?_⟩ <;> rcases hc with hc | hc <;> omega

/-- A returning `sort_axis` went through a returning walk that met both final
assertions, and then through one of the two commit strategies. -/
theorem sort_axis_eq_ok (m_tags indices m_tmp : List Nat) (b e pivot : Nat)
    (r : List Nat × List Nat) (h : sort_axis m_tags b e pivot indices m_tmp = .ok r) :
    ∃ w, forRange b e (walk_body m_tags indices e pivot)
        { left := b, right := pivot, tmp := m_tmp } = .ok w ∧
      w.left = pivot ∧ w.right = e ∧
      (if e - b > indices.length / 2 then commit_swap b e indices w.tmp
        else commit_copy b e indices w.tmp) = .ok r := by
  unfold sort_axis at h
  obtain ⟨w, hw, h⟩ := (bind_eq_ok _ _ _).mp h
  refine ⟨w, hw, ?_⟩
  by_cases hl : w.left = pivot
  · by_cases hr : w.right = e
    · refine ⟨hl, hr, ?_⟩
      simpa [hl, hr, bind, Except.bind, pure, Except.pure] using h
    · simp [hl, hr, bind, Except.bind, pure, Except.pure, throw, throwThe, MonadExceptOf.throw,
        Except.instMonad] at h
  · simp [hl, bind, Except.bind, pure, Except.pure, throw, throwThe, MonadExceptOf.throw] at h

theorem commit_swap_eq_ok (b e : Nat) (indices tmp : List Nat) (r : List Nat × List Nat)
    (h : commit_swap b e indices tmp = .ok r) : r.1.length = tmp.length ∧ r.2 = indices := by
  unfold commit_swap at h
  obtain ⟨t1, h1, h⟩ := (bind_eq_ok _ _ _).mp h
  obtain ⟨t2, h2, h⟩ := (bind_eq_ok _ _ _).mp h
  have h3 := Except.ok.inj h
  rw [← h3]
  exact ⟨by rw [copy_range_length _ _ _ _ _ h2, copy_range_length _ _ _ _ _ h1], rfl⟩

theorem commit_copy_eq_ok (b e : Nat) (indices tmp : List Nat) (r : List Nat × List Nat)
    (h : commit_copy b e indices tmp = .ok r) : r.1.length = indices.length ∧ r.2 = tmp := by
  unfold commit_copy at h
  obtain ⟨t1, h1, h⟩ := (bind_eq_ok _ _ _).mp h
  have h3 := Except.ok.inj h
  rw [← h3]
  exact ⟨copy_range_length _ _ _ _ _ h1, rfl⟩

/-- A returning `sort_axis` on an index vector and a scratch vector of length `N` leaves
both at length `N`, whichever commit strategy it takes. -/
theorem sort_axis_lengths (m_tags indices m_tmp : List Nat) (b e pivot N : Nat)
    (r : List Nat × List Nat) (hi : indices.length = N) (ht : m_tmp.length = N)
    (h : sort_axis m_tags b e pivot indices m_tmp = .ok r) :
    r.1.length = N ∧ r.2.length = N := by
  obtain ⟨w, hw, _, _, hc⟩ := sort_axis_eq_ok _ _ _ _ _ _ _ h
  have hwl := (walk_eq_ok _ _ _ _ _ _ _ hw).1
  by_cases hbr : e - b > indices.length / 2
  · rw [if_pos hbr] at hc
    obtain ⟨h1, h2⟩ := commit_swap_eq_ok _ _ _ _ _ hc
    exact ⟨by omega, by rw [h2]; exact hi⟩
  · rw [if_neg hbr] at hc
    obtain ⟨h1, h2⟩ := commit_copy_eq_ok _ _ _ _ _ hc
    exact ⟨by omega, by rw [h2]; omega⟩

/-- What a returning iteration of the loop over the axes did. -/
theorem axis_body_eq_ok (dimension b e pivot d : Nat) (st st1 : PartitionerBase)
    (h : axis_body dimension b e pivot d st = .ok st1) :
    (d = dimension ∧ st1 = st) ∨
    (d ≠ dimension ∧ ∃ indices r, st.m_indices[d]? = some indices ∧
      sort_axis st.m_tags b e pivot indices st.m_tmp = .ok r ∧
      st1 = { st with m_indices := st.m_indices.set d r.1, m_tmp := r.2 }) := by
  unfold axis_body at h
  by_cases hd : d = dimension
  · left
    simp only [hd, ne_eq, not_true_eq_false, if_false] at h
    exact ⟨hd, (Except.ok.inj h).symm⟩
  · right
    simp only [ne_eq, hd, not_false_eq_true, if_true] at h
    obtain ⟨indices, h1, h⟩ := (bind_eq_ok _ _ _).mp h
    obtain ⟨r, h2, h⟩ := (bind_eq_ok _ _ _).mp h
    refine ⟨hd, indices, r, ?_, h2, (Except.ok.inj h).symm⟩
    unfold readAt at h1
    cases hv : st.m_indices[d]? with
    | none => rw [hv] at h1; exact Except.noConfusion h1
    | some v => rw [hv] at h1; rw [Except.ok.inj h1]

/-- The stages of a returning call of `sort_indices`. -/
theorem sort_indices_eq_ok (s s' : PartitionerBase) (dimension b e pivot : Nat)
    (h : sort_indices s dimension b e pivot = .ok s') :
    ∃ split tags1 tags2, s.m_indices[dimension]? = some split ∧
      tag_range split Left b pivot s.m_tags = .ok tags1 ∧
      tag_range split Right pivot e tags1 = .ok tags2 ∧
      forRange 0 s.Dimension (axis_body dimension b e pivot) { s with m_tags := tags2 }
        = .ok s' := by
  unfold sort_indices at h
  obtain ⟨split, h1, h⟩ := (bind_eq_ok _ _ _).mp h
  obtain ⟨tags1, h2, h⟩ := (bind_eq_ok _ _ _).mp h
  obtain ⟨tags2, h3, h⟩ := (bind_eq_ok _ _ _).mp h
  refine ⟨split, tags1, tags2, ?_, h2, h3, h⟩
  unfold readAt at h1
  cases hv : s.m_indices[dimension]? with
  | none => rw [hv] at h1; exact Except.noConfusion h1
  | some v => rw [hv] at h1; rw [Except.ok.inj h1]

/-- Every returning call of `sort_indices`, valid or not, keeps the number of axes and
the length of every vector. -/
theorem sort_indices_wellSized (s s' : PartitionerBase) (N dimension b e pivot : Nat)
    (hws : WellSized s N) (h : sort_indices s dimension b e pivot = .ok s') :
    WellSized s' N ∧ s'.Dimension = s.Dimension := by
  obtain ⟨split, tags1, tags2, _, h1, h2, hloop⟩ := sort_indices_eq_ok _ _ _ _ _ _ h
  have ht2 : tags2.length = N := by
    rw [tag_range_length _ _ _ _ _ _ h2, tag_range_length _ _ _ _ _ _ h1]
    exact hws.2.2
  have := forRange_preserves 0 s.Dimension _ _ s'
    (fun st => WellSized st N ∧ st.Dimension = s.Dimension)
    (show WellSized { s with m_tags := tags2 } N ∧
        PartitionerBase.Dimension { s with m_tags := tags2 } = s.Dimension from
      ⟨⟨hws.1, hws.2.1, ht2⟩, rfl⟩)
    (by
      intro i st st1 ⟨⟨hI, hM, hT⟩, hD⟩ hb
      rcases axis_body_eq_ok _ _ _ _ _ _ _ hb with ⟨_, rfl⟩ | ⟨_, indices, r, hv, hax, rfl⟩
      · exact ⟨⟨hI, hM, hT⟩, hD⟩
      · obtain ⟨hr1, hr2⟩ := sort_axis_lengths _ _ _ _ _ _ N r
          (hI _ (mem_of_getElem?_eq _ _ _ hv)) hM hax
        refine ⟨⟨?_, hr2, hT⟩, ?_⟩
        · intro v hvm
          rcases List.mem_or_eq_of_mem_set hvm with hvm | rfl
          · exact hI v hvm
          · exact hr1
        · simp only [PartitionerBase.Dimension, List.length_set]
          exact hD)
    hloop
  exact this

/-! ## Buffer lengths -/

/-- C17 (buffer-length invariant). After `initialize(bboxes)` with `N` boxes every axis
vector, the scratch vector and the tag vector have length `N`; every call of
`sort_indices` that returns, whichever commit branch it takes, keeps the number of axes
and all these lengths; hence they hold in every configuration reachable by splits. -/
theorem buffer_lengths {B K : Type} [LinearOrder K]
    (stdsort : (Nat → Nat → Bool) → List Nat → List Nat) (hsort : StdSortSpec stdsort)
    (key : B → Nat → K) (s0 : PartitionerBase) (bboxes : List B) :
    WellSized (initialize_ stdsort key s0 bboxes) bboxes.length ∧
    (∀ (s s' : PartitionerBase) (dimension begin_ end_ pivot : Nat),
      WellSized s bboxes.length → sort_indices s dimension begin_ end_ pivot = .ok s' →
      WellSized s' bboxes.length ∧ s'.Dimension = s.Dimension) ∧
    (∀ c, Reachable stdsort key s0 bboxes c →
      WellSized c.state bboxes.length ∧ c.state.Dimension = s0.Dimension) := by
  have hinit := (invariant_init stdsort hsort key s0 bboxes).1
  refine ⟨hinit, fun s s' dimension b e pivot hws h =>
    sort_indices_wellSized s s' _ dimension b e pivot hws h, ?_⟩
  intro c hreach
  induction hreach with
  | init => exact ⟨hinit, (initialize_state stdsort hsort key s0 bboxes).1⟩
  | split c before after b e dimension pivot s' _ _ _ _ _ hrun ih =>
    obtain ⟨h1, h2⟩ := sort_indices_wellSized c.state s' _ dimension b e pivot ih.1 hrun
    exact ⟨h1, by rw [h2]; exact ih.2⟩

/-- Witness for C17: the scenario with insertion sort as `std::sort`. -/
theorem buffer_lengths_witness :
    WellSized (initialize_ insertion_sort scenario_key (fresh 2) scenario_boxes)
      scenario_boxes.length ∧
    (∀ (s s' : PartitionerBase) (dimension begin_ end_ pivot : Nat),
      WellSized s scenario_boxes.length → sort_indices s dimension begin_ end_ pivot = .ok s' →
      WellSized s' scenario_boxes.length ∧ s'.Dimension = s.Dimension) ∧
    (∀ c, Reachable insertion_sort scenario_key (fresh 2) scenario_boxes c →
      WellSized c.state scenario_boxes.length ∧ c.state.Dimension = (fresh 2).Dimension) :=
  buffer_lengths insertion_sort insertion_sort_spec scenario_key (fresh 2) scenario_boxes

/-! ## Ties in the initial order -/

theorem pair_sublist_of_mem (i j : Nat) (hij : i ≠ j) :
    ∀ l : List Nat, i ∈ l → j ∈ l → [i, j].Sublist l ∨ [j, i].Sublist l := by
  intro l
  induction l with
  | nil => intro hi; exact absurd hi (List.not_mem_nil _)
  | cons x l ih =>
    intro hi hj
    by_cases hxi : i = x
    · have hjl : j ∈ l := by
        rcases List.mem_cons.mp hj with h | h
        · exact absurd (hxi.trans h.symm) hij
        · exact h
      left
      rw [← hxi]
      exact List.Sublist.cons₂ i (List.singleton_sublist.mpr hjl)
    · by_cases hxj : j = x
      · have hil : i ∈ l := by
          rcases List.mem_cons.mp hi with h | h
          · exact absurd h hxi
          · exact h
        right
        rw [← hxj]
        exact List.Sublist.cons₂ j (List.singleton_sublist.mpr hil)
      · have hil : i ∈ l := by
          rcases List.mem_cons.mp hi with h | h
          · exact absurd h hxi
          · exact h
        have hjl : j ∈ l := by
          rcases List.mem_cons.mp hj with h | h
          · exact absurd h hxj
          · exact h
        rcases ih hil hjl with h | h
        · exact Or.inl (List.Sublist.cons x h)
        · exact Or.inr (List.Sublist.cons x h)

/-- C14 (the initial order is the stable order, ties broken by original index). For every
conforming `std::sort`, every box sequence, every axis `d` and every two items `i`, `j`:
if their axis-`d` sort keys are equal and `i < j`, then `i` appears before `j` in
`indices[d]` after `initialize(bboxes)`; and if the key of `i` is less than the key of
`j`, then `i` appears before `j` as well. So `indices[d]` is the stable sort of the
identity permutation by the axis-`d` key. -/
theorem initialize_stable_order {B K : Type} [LinearOrder K]
    (stdsort : (Nat → Nat → Bool) → List Nat → List Nat) (hsort : StdSortSpec stdsort)
    (key : B → Nat → K) (s0 : PartitionerBase) (bboxes : List B) (d i j : Nat) (a b : B)
    (hd : d < s0.Dimension) (hi : bboxes[i]? = some a) (hj : bboxes[j]? = some b) :
    (key a d = key b d → i < j →
      [i, j].Sublist ((initialize_ stdsort key s0 bboxes).axis d)) ∧
    (key a d < key b d →
      [i, j].Sublist ((initialize_ stdsort key s0 bboxes).axis d)) := by
  have main : (key a d < key b d ∨ (key a d = key b d ∧ i < j)) →
      [i, j].Sublist ((initialize_ stdsort key s0 bboxes).axis d) := by
    intro hord
    obtain ⟨_, _, _, h⟩ := initialize_state stdsort hsort key s0 bboxes
    obtain ⟨hax, hperm, _⟩ := h d hd
    have hpw := (hsort _ _ (predicate_strictWeakOn key bboxes d)).2
    rw [← hax] at hpw
    have hiN : i < bboxes.length := (List.getElem?_eq_some.mp hi).1
    have hjN : j < bboxes.length := (List.getElem?_eq_some.mp hj).1
    have him : i ∈ (initialize_ stdsort key s0 bboxes).axis d :=
      hperm.symm.subset (List.mem_range.mpr hiN)
    have hjm : j ∈ (initialize_ stdsort key s0 bboxes).axis d :=
      hperm.symm.subset (List.mem_range.mpr hjN)
    have hij : i ≠ j := by
      intro h
      subst h
      rw [hi] at hj
      rw [Option.some.inj hj] at hord
      rcases hord with h | ⟨_, h⟩
      · exact lt_irrefl _ h
      · exact Nat.lt_irrefl _ h
    rcases pair_sublist_of_mem i j hij _ him hjm with h | h
    · exact h
    · exfalso
      have hp : List.Pairwise (fun x y => BboxSortPredicate key bboxes d y x = false) [j, i] :=
        List.Pairwise.sublist h hpw
      have hf := (List.pairwise_cons.mp hp).1 i (List.mem_singleton_self _)
      rw [(predicate_true_iff key bboxes d i j a b hi hj).mpr hord] at hf
      exact Bool.noConfusion hf
  exact ⟨fun h1 h2 => main (Or.inr ⟨h1, h2⟩), fun h => main (Or.inl h)⟩

/-- Witness for C14: two boxes with the same axis-0 key; item 0 comes before item 1. -/
theorem initialize_stable_order_witness :
    [0, 1].Sublist
      ((initialize_ insertion_sort scenario_key (fresh 2)
        [((5, 0) : Int × Int), (5, 1)]).axis 0) :=
  (initialize_stable_order insertion_sort insertion_sort_spec scenario_key (fresh 2)
    [((5, 0) : Int × Int), (5, 1)] 0 0 1 (5, 0) (5, 1) (by decide) (by rfl) (by rfl)).1
    (by decide) (by decide)

/-! ## Calls that violate the precondition -/

/-- Tagging cannot fault when the positions are within the split axis and its entries
are within the tag vector, whatever the order of the two bounds. -/
theorem tag_range_total (split tags : List Nat) (tag lo hi : Nat) (hhi : hi ≤ split.length)
    (hb : ∀ x ∈ split, x < tags.length) :
    ∃ tags', tag_range split tag lo hi tags = .ok tags' ∧ tags'.length = tags.length := by
  by_cases hle : lo ≤ hi
  · obtain ⟨t, h1, h2, _⟩ := tag_range_ok split tags tag lo hi hle hhi
      (fun x hx => hb x ((slice_sublist split lo hi).subset hx))
    exact ⟨t, h1, h2⟩
  · exact ⟨tags, forRange_empty _ _ _ _ (by omega), rfl⟩

/-- On vectors of length `N` with entries below `N`, a call of `sort_axis` whose bounds
are within `N` but out of order (`pivot < begin` or `end < pivot`) ends in an assertion
failure. -/
theorem sort_axis_asserts (m_tags indices m_tmp : List Nat) (b e pivot N : Nat)
    (hT : m_tags.length = N) (hI : indices.length = N) (hM : m_tmp.length = N)
    (hent : ∀ x ∈ indices, x < N) (hpN : pivot ≤ N) (heN : e ≤ N)
    (hviol : pivot < b ∨ e < pivot) :
    ∃ line, sort_axis m_tags b e pivot indices m_tmp = .error (.assertion line) := by
  have hwalk : (∃ w, forRange b e (walk_body m_tags indices e pivot)
        { left := b, right := pivot, tmp := m_tmp } = .ok w ∧
        (w.tmp.length = N ∧ b ≤ w.left ∧ pivot ≤ w.right)) ∨
      (∃ f, forRange b e (walk_body m_tags indices e pivot)
        { left := b, right := pivot, tmp := m_tmp } = .error f ∧ ∃ line, f = .assertion line) := by
    by_cases hbe : b ≤ e
    · apply forRange_fault (walk_body m_tags indices e pivot)
        (fun _ w => w.tmp.length = N ∧ b ≤ w.left ∧ pivot ≤ w.right)
        (fun f => ∃ line, f = .assertion line) e (e - b) b _ (by omega)
        ⟨hM, le_refl _, le_refl _⟩
      intro i w h1 h2 ⟨hl, hlb, hrp⟩
      have hi : i < indices.length := by omega
      have hx : indices[i] < m_tags.length := by
        rw [hT]
        exact hent _ (List.getElem_mem hi)
      by_cases ht : m_tags[indices[i]] = Left
      · by_cases hlt : w.left < pivot
        · left
          refine ⟨{ w with left := w.left + 1, tmp := w.tmp.set w.left indices[i] }, ?_,
            by simpa using hl, ?_, hrp⟩
          · simp [walk_body, readAt_ok indices i hi, readAt_ok m_tags _ hx, ht, hlt,
              writeAt_ok w.tmp w.left _ (by omega), bind, Except.bind, pure, Except.pure]
          · show b ≤ w.left + 1
            omega
        · right
          refine ⟨.assertion 162, ?_, 162, rfl⟩
          simp [walk_body, readAt_ok indices i hi, readAt_ok m_tags _ hx, ht, hlt, bind,
            Except.bind, throw, throwThe, MonadExceptOf.throw]
      · by_cases hlt : w.right < e
        · left
          refine ⟨{ w with right := w.right + 1, tmp := w.tmp.set w.right indices[i] }, ?_,
            by simpa using hl, hlb, ?_⟩
          · simp [walk_body, readAt_ok indices i hi, readAt_ok m_tags _ hx, ht, hlt,
              writeAt_ok w.tmp w.right _ (by omega), bind, Except.bind, pure, Except.pure]
          · show pivot ≤ w.right + 1
            omega
        · right
          refine ⟨.assertion 167, ?_, 167, rfl⟩
          simp [walk_body, readAt_ok indices i hi, readAt_ok m_tags _ hx, ht, hlt, bind,
            Except.bind, throw, throwThe, MonadExceptOf.throw]
    · exact Or.inl ⟨_, forRange_empty _ _ _ _ (by omega), hM, le_refl _, le_refl _⟩
  rcases hwalk with ⟨w, hw, _, hlb, hrp⟩ | ⟨f, hw, line, rfl⟩
  · by_cases hl : w.left = pivot
    · by_cases hr : w.right = e
      · omega
      · exact ⟨173, by simp [sort_axis, hw, hl, hr, bind, Except.bind, pure, Except.pure, throw,
          throwThe, MonadExceptOf.throw]⟩
    · exact ⟨172, by simp [sort_axis, hw, hl, bind, Except.bind, throw, throwThe,
        MonadExceptOf.throw]⟩
  · exact ⟨line, by simp [sort_axis, hw, bind, Except.bind]⟩

theorem axis_body_asserts (s : PartitionerBase) (N dimension b e pivot d : Nat)
    (hws : WellSized s N) (hent : ∀ v ∈ s.m_indices, ∀ x ∈ v, x < N)
    (hd : d < s.Dimension) (hne : d ≠ dimension) (hpN : pivot ≤ N) (heN : e ≤ N)
    (hviol : pivot < b ∨ e < pivot) :
    ∃ line, axis_body dimension b e pivot d s = .error (.assertion line) := by
  have hv := axis_eq s d hd
  have hm := axis_mem s d hd
  obtain ⟨line, hax⟩ := sort_axis_asserts s.m_tags (s.axis d) s.m_tmp b e pivot N hws.2.2
    (hws.1 _ hm) hws.2.1 (hent _ hm) hpN heN hviol
  exact ⟨line, by simp [axis_body, hne, readAt, hv, hax, bind, Except.bind]⟩

/-- C12, as amended (order violations are caught by the assertions). In a debug build, on
a state with an axis other than the split axis, whose vectors all have length `N` and
whose index vectors hold entries below `N`, every call `sort_indices(s, begin, end, pivot)`
with `pivot <= N` and `end <= N` that violates `begin <= pivot` or `pivot <= end` ends
in an assertion failure. -/
theorem order_violation_asserts (s : PartitionerBase) (N dimension begin_ end_ pivot : Nat)
    (hws : WellSized s N) (hent : ∀ v ∈ s.m_indices, ∀ x ∈ v, x < N)
    (hdim : dimension < s.Dimension)
    (hother : ∃ d, d < s.Dimension ∧ d ≠ dimension)
    (hpN : pivot ≤ N) (heN : end_ ≤ N) (hviol : pivot < begin_ ∨ end_ < pivot) :
    ∃ line, sort_indices s dimension begin_ end_ pivot = .error (.assertion line) := by
  have hsplit := axis_eq s dimension hdim
  have hsm := axis_mem s dimension hdim
  have hsl : (s.axis dimension).length = N := hws.1 _ hsm
  obtain ⟨tags1, ht1, hl1⟩ := tag_range_total (s.axis dimension) s.m_tags Left begin_ pivot
    (by omega) (fun x hx => by rw [hws.2.2]; exact hent _ hsm x hx)
  obtain ⟨tags2, ht2, hl2⟩ := tag_range_total (s.axis dimension) tags1 Right pivot end_
    (by omega) (fun x hx => by rw [hl1, hws.2.2]; exact hent _ hsm x hx)
  have hws2 : WellSized { s with m_tags := tags2 } N :=
    ⟨hws.1, hws.2.1, by show tags2.length = N; rw [hl2, hl1]; exact hws.2.2⟩
  have hloop : ∃ line, forRange 0 s.Dimension (axis_body dimension begin_ end_ pivot)
      { s with m_tags := tags2 } = .error (.assertion line) := by
    obtain ⟨d, hd, hne⟩ := hother
    by_cases h0 : dimension = 0
    · have h1 : 1 < s.Dimension := by omega
      obtain ⟨line, hb⟩ := axis_body_asserts { s with m_tags := tags2 } N dimension begin_ end_
        pivot 1 hws2 hent h1 (by omega) hpN heN hviol
      refine ⟨line, ?_⟩
      rw [forRange_step _ _ _ _ (by omega : 0 < s.Dimension)]
      have hb0 : axis_body dimension begin_ end_ pivot 0 { s with m_tags := tags2 }
          = .ok { s with m_tags := tags2 } := by
        simp [axis_body, h0, pure, Except.pure]
      rw [hb0]
      show forRange 1 s.Dimension _ _ = _
      rw [forRange_step _ _ _ _ h1, hb]
      rfl
    · obtain ⟨line, hb⟩ := axis_body_asserts { s with m_tags := tags2 } N dimension begin_ end_
        pivot 0 hws2 hent (by omega : 0 < s.Dimension) (fun h => h0 h.symm) hpN heN hviol
      refine ⟨line, ?_⟩
      rw [forRange_step _ _ _ _ (by omega : 0 < s.Dimension), hb]
      rfl
  obtain ⟨line, hl⟩ := hloop
  exact ⟨line, by simp [sort_indices, readAt, hsplit, ht1, ht2, hl, bind, Except.bind]⟩

/-- Witness for the amended C12: on the scenario state, `pivot = 1 < begin = 2` and
`end = 2 < pivot = 3` both fail the assertion of source line 172. -/
theorem order_violation_asserts_witness :
    (∃ line, sort_indices scenario_state 0 2 4 1 = .error (.assertion line)) ∧
    sort_indices scenario_state 0 2 4 1 = .error (.assertion 172) ∧
    sort_indices scenario_state 0 0 2 3 = .error (.assertion 172) :=
  ⟨order_violation_asserts scenario_state 4 0 2 4 1
      (by unfold WellSized; decide) (by decide) (by decide) ⟨1, by decide, by decide⟩
      (by decide) (by decide) (by decide),
    by rfl, by rfl⟩

/-- Counterexample to C12 as stated: a call with `end > N` runs out of bounds without
any assertion failing; a call on a stale range (axis 0 holds item 0 and axis 1 holds
item 1 in `[0,1)`) returns normally; a call with `begin > pivot` on a partitioner with a
single axis returns normally. -/
theorem violations_not_asserted :
    sort_indices scenario_state 0 0 5 2 = .error .outOfBounds ∧
    sort_indices { m_indices := [[0, 1], [1, 0]], m_tmp := [0, 0], m_tags := [0, 0] } 0 0 1 1
      = .ok { m_indices := [[0, 1], [1, 0]], m_tmp := [1, 0], m_tags := [0, 0] } ∧
    sort_indices { m_indices := [[0, 1]], m_tmp := [0, 0], m_tags := [0, 0] } 0 1 2 0
      = .ok { m_indices := [[0, 1]], m_tmp := [0, 0], m_tags := [1, 1] } :=
  ⟨by rfl, by rfl, by rfl⟩

/-! ## Splits of disjoint ranges -/

theorem getElem?_of_slice_eq {α : Type} (x y : List α) (a c j : Nat)
    (h : slice x a c = slice y a c) (h1 : a ≤ j) (h2 : j < c) : x[j]? = y[j]? := by
  have h3 := congrArg (fun l => l[j - a]?) h
  simp only [slice_getElem?] at h3
  have h4 : a + (j - a) = j := by omega
  rw [h4] at h3
  simpa [h2] using h3

theorem m_indices_ext (s t : PartitionerBase) (hD : s.Dimension = t.Dimension)
    (h : ∀ d, d < s.Dimension → s.axis d = t.axis d) : s.m_indices = t.m_indices := by
  apply List.ext_getElem?
  intro d
  by_cases hd : d < s.Dimension
  · rw [axis_eq s d hd, axis_eq t d (by rw [← hD]; exact hd), h d hd]
  · have h1 : s.m_indices[d]? = none := List.getElem?_eq_none (by
      simp only [PartitionerBase.Dimension] at hd; omega)
    have h2 : t.m_indices[d]? = none := List.getElem?_eq_none (by
      simp only [PartitionerBase.Dimension] at hd hD; omega)
    rw [h1, h2]

/-- Summary of a valid call: it returns a state with the same number of axes and the same
lengths, in which every axis is unchanged outside `[b, e)` and holds in `[b, e)` either
its old contents (split axis) or their rearrangement by the two groups of the split
axis. -/
theorem call_summary (s : PartitionerBase) (N dimension b e pivot : Nat)
    (hws : WellSized s N) (hact : ActiveRange s N b e) (hdim : dimension < s.Dimension)
    (hbp : b ≤ pivot) (hpe : pivot ≤ e) (heN : e ≤ N) :
    ∃ s', sort_indices s dimension b e pivot = .ok s' ∧
      WellSized s' N ∧ s'.Dimension = s.Dimension ∧
      ∀ d, d < s.Dimension →
        (∀ j, j < b ∨ e ≤ j → (s'.axis d)[j]? = (s.axis d)[j]?) ∧
        slice (s'.axis d) b e =
          if d = dimension then slice (s.axis d) b e
          else split_range (slice (s.axis dimension) b pivot) (slice (s.axis dimension) pivot e)
            (slice (s.axis d) b e) := by
  obtain ⟨s', hrun, _, _, hD, hax⟩ :=
    sort_indices_axes s N dimension b e pivot hws hact hdim hbp hpe heN
  refine ⟨s', hrun, (sort_indices_wellSized s s' N dimension b e pivot hws hrun).1, hD, ?_⟩
  intro d hd
  by_cases hne : d = dimension
  · rw [hax d hd, if_pos hne, if_pos hne]
    exact ⟨fun _ _ => rfl, rfl⟩
  · obtain ⟨l1, l2, n1, n2, m1, m2⟩ := valid_axis_facts s N dimension b e d hws hact hdim hd
    obtain ⟨_, hL, hR, hout⟩ := stable_split_parts (s.axis dimension) (s.axis d) b e pivot
      hbp hpe (by omega) (by omega) n1 n2 m1 m2
    rw [hax d hd, if_neg hne, if_neg hne]
    refine ⟨hout, ?_⟩
    rw [← slice_append _ b pivot e hbp hpe, hL, hR]
    rfl

/-- A call on `[b1, e1)` leaves a range `[b2, e2)` that does not overlap it active, and
leaves every slice inside `[b2, e2)` as it was. -/
theorem disjoint_range_kept (s s' : PartitionerBase) (N b1 e1 b2 e2 : Nat)
    (hD : s'.Dimension = s.Dimension)
    (hout : ∀ d, d < s.Dimension →
      ∀ j, j < b1 ∨ e1 ≤ j → (s'.axis d)[j]? = (s.axis d)[j]?)
    (hdis : e1 ≤ b2 ∨ e2 ≤ b1) (hact : ActiveRange s N b2 e2) :
    ActiveRange s' N b2 e2 ∧
    ∀ d, d < s.Dimension → ∀ x y, b2 ≤ x → y ≤ e2 →
      slice (s'.axis d) x y = slice (s.axis d) x y := by
  have hsl : ∀ d, d < s.Dimension → ∀ x y, b2 ≤ x → y ≤ e2 →
      slice (s'.axis d) x y = slice (s.axis d) x y := by
    intro d hd x y hx hy
    apply slice_congr
    intro j h1 h2
    exact hout d hd j (by omega)
  exact ⟨activeRange_of_slices_eq s s' N b2 e2 hD
    (fun d hd => hsl d hd b2 e2 (le_refl _) (le_refl _)) hact, hsl⟩

/-- Two valid calls in a row on ranges that do not overlap: both return, and the final
index vectors are described in terms of the initial state alone. -/
theorem two_calls (s : PartitionerBase) (N dA bA eA pA dB bB eB pB : Nat)
    (hws : WellSized s N) (hactA : ActiveRange s N bA eA) (hactB : ActiveRange s N bB eB)
    (hdA : dA < s.Dimension) (hdB : dB < s.Dimension)
    (hbpA : bA ≤ pA) (hpeA : pA ≤ eA) (heA : eA ≤ N)
    (hbpB : bB ≤ pB) (hpeB : pB ≤ eB) (heB : eB ≤ N)
    (hdis : eA ≤ bB ∨ eB ≤ bA) :
    ∃ sA sAB, sort_indices s dA bA eA pA = .ok sA ∧ sort_indices sA dB bB eB pB = .ok sAB ∧
      sAB.Dimension = s.Dimension ∧
      ∀ d, d < s.Dimension →
        (∀ j, (j < bA ∨ eA ≤ j) → (j < bB ∨ eB ≤ j) → (sAB.axis d)[j]? = (s.axis d)[j]?) ∧
        slice (sAB.axis d) bA eA =
          (if d = dA then slice (s.axis d) bA eA
            else split_range (slice (s.axis dA) bA pA) (slice (s.axis dA) pA eA)
              (slice (s.axis d) bA eA)) ∧
        slice (sAB.axis d) bB eB =
          (if d = dB then slice (s.axis d) bB eB
            else split_range (slice (s.axis dB) bB pB) (slice (s.axis dB) pB eB)
              (slice (s.axis d) bB eB)) := by
  obtain ⟨sA, hrunA, hwsA, hDA, hA⟩ := call_summary s N dA bA eA pA hws hactA hdA hbpA hpeA heA
  obtain ⟨hactB', hsl⟩ := disjoint_range_kept s sA N bA eA bB eB hDA
    (fun d hd => (hA d hd).1) hdis hactB
  obtain ⟨sAB, hrunB, _, hDB, hB⟩ := call_summary sA N dB bB eB pB hwsA hactB'
    (by rw [hDA]; exact hdB) hbpB hpeB heB
  refine ⟨sA, sAB, hrunA, hrunB, by rw [hDB, hDA], ?_⟩
  intro d hd
  have hd' : d < sA.Dimension := by rw [hDA]; exact hd
  refine ⟨?_, ?_, ?_⟩
  · intro j h1 h2
    rw [(hB d hd').1 j h2, (hA d hd).1 j h1]
  · rw [← (hA d hd).2]
    apply slice_congr
    intro j h1 h2
    exact (hB d hd').1 j (by omega)
  · rw [(hB d hd').2, hsl d hd bB eB (le_refl _) (le_refl _),
      hsl dB hdB bB pB (le_refl _) hpeB, hsl dB hdB pB eB hbpB (le_refl _)]

/-- C19 (splits of disjoint ranges commute). On a state whose vectors all have length
`N`, with two active ranges `[b1, e1)` and `[b2, e2)` such that `e1 <= b2`, any axes and
any pivots `b1 <= p1 <= e1` and `b2 <= p2 <= e2`: calling `sort_indices` on the first
range and then on the second returns the same index vectors as calling it on the second
range and then on the first (all four calls return). -/
theorem disjoint_splits_commute (s : PartitionerBase) (N axis1 b1 e1 p1 axis2 b2 e2 p2 : Nat)
    (hws : WellSized s N) (hact1 : ActiveRange s N b1 e1) (hact2 : ActiveRange s N b2 e2)
    (hd1 : axis1 < s.Dimension) (hd2 : axis2 < s.Dimension)
    (hbp1 : b1 ≤ p1) (hpe1 : p1 ≤ e1) (hdis : e1 ≤ b2)
    (hbp2 : b2 ≤ p2) (hpe2 : p2 ≤ e2) (he2 : e2 ≤ N) :
    ∃ sA sAB sB sBA, sort_indices s axis1 b1 e1 p1 = .ok sA ∧
      sort_indices sA axis2 b2 e2 p2 = .ok sAB ∧
      sort_indices s axis2 b2 e2 p2 = .ok sB ∧
      sort_indices sB axis1 b1 e1 p1 = .ok sBA ∧
      sAB.m_indices = sBA.m_indices := by
  obtain ⟨sA, sAB, hA, hAB, hD1, h1⟩ := two_calls s N axis1 b1 e1 p1 axis2 b2 e2 p2 hws hact1
    hact2 hd1 hd2 hbp1 hpe1 (by omega) hbp2 hpe2 he2 (Or.inl hdis)
  obtain ⟨sB, sBA, hB, hBA, hD2, h2⟩ := two_calls s N axis2 b2 e2 p2 axis1 b1 e1 p1 hws hact2
    hact1 hd2 hd1 hbp2 hpe2 he2 hbp1 hpe1 (by omega) (Or.inr hdis)
  refine ⟨sA, sAB, sB, sBA, hA, hAB, hB, hBA, ?_⟩
  apply m_indices_ext sAB sBA (by rw [hD1, hD2])
  intro d hd
  rw [hD1] at hd
  obtain ⟨o1, x1, y1⟩ := h1 d hd
  obtain ⟨o2, y2, x2⟩ := h2 d hd
  apply List.ext_getElem?
  intro j
  by_cases c1 : b1 ≤ j ∧ j < e1
  · exact getElem?_of_slice_eq _ _ b1 e1 j (x1.trans x2.symm) c1.1 c1.2
  · by_cases c2 : b2 ≤ j ∧ j < e2
    · exact getElem?_of_slice_eq _ _ b2 e2 j (y1.trans y2.symm) c2.1 c2.2
    · rw [o1 j (by omega) (by omega), o2 j (by omega) (by omega)]

/-- Witness for C19: a six-item state with the active ranges `[0,3)` and `[3,6)`; the
first is split on axis 0 at pivot 1, the second on axis 1 at pivot 5. -/
theorem disjoint_splits_commute_witness :
    (∃ sA sAB sB sBA,
      sort_indices
        { m_indices := [[2, 0, 1, 5, 3, 4], [0, 1, 2, 3, 4, 5]], m_tmp := [0, 0, 0, 0, 0, 0],
          m_tags := [0, 0, 0, 0, 0, 0] } 0 0 3 1 = .ok sA ∧
      sort_indices sA 1 3 6 5 = .ok sAB ∧
      sort_indices
        { m_indices := [[2, 0, 1, 5, 3, 4], [0, 1, 2, 3, 4, 5]], m_tmp := [0, 0, 0, 0, 0, 0],
          m_tags := [0, 0, 0, 0, 0, 0] } 1 3 6 5 = .ok sB ∧
      sort_indices sB 0 0 3 1 = .ok sBA ∧
      sAB.m_indices = sBA.m_indices) ∧
    (sort_indices
        { m_indices := [[2, 0, 1, 5, 3, 4], [0, 1, 2, 3, 4, 5]], m_tmp := [0, 0, 0, 0, 0, 0],
          m_tags := [0, 0, 0, 0, 0, 0] } 0 0 3 1 >>= fun sA => sort_indices sA 1 3 6 5)
      = .ok { m_indices := [[2, 0, 1, 3, 4, 5], [2, 0, 1, 3, 4, 5]],
              m_tmp := [2, 0, 1, 3, 4, 5], m_tags := [1, 1, 0, 0, 0, 1] } :=
  ⟨disjoint_splits_commute
      { m_indices := [[2, 0, 1, 5, 3, 4], [0, 1, 2, 3, 4, 5]], m_tmp := [0, 0, 0, 0, 0, 0],
        m_tags := [0, 0, 0, 0, 0, 0] } 6 0 0 3 1 1 3 6 5
      (by unfold WellSized; decide) (by unfold ActiveRange; decide)
      (by unfold ActiveRange; decide) (by decide) (by decide) (by decide) (by decide)
      (by decide) (by decide) (by decide) (by decide),
    by rfl⟩

end Bvh
